import Mathlib

/-!
Verification of the `neutronui/color-gen` design-token resolution engine.

The definitions below are a shallow embedding of the Rust sources:

* `src/src/design_token.rs` — the value model (`TokenValue`, `Token`,
  `TokenSet`), the resolver (`resolve_tokens`, `resolve_tokens_with_registry`,
  `resolve_value`, `resolve_alias`, `apply_transform_pipeline`,
  `apply_transform_step`), the built-in transforms (`builtin_alias`,
  `builtin_multiply`, `builtin_add`, `builtin_subtract`, `builtin_divide`)
  and the error type `ResolveError`.
* `src/_src/design_token/css_var.rs` — CSS custom-property key construction
  (`CssKeyOptions`, `make_css_custom_property_key`, `normalize_path`,
  `normalize_token`).

Modelling conventions:

* `IndexMap<String, T>` is modelled as an ordered association list
  `List (String × T)`; `insert` replaces the value in place when the key is
  present and appends otherwise, exactly like `IndexMap::insert` (which keeps
  the original position of an existing key).
* Rust `f64` is modelled as `Rat`.  Every numeric computation appearing in the
  claims below is exact on small integers, where `f64` arithmetic agrees with
  rational arithmetic.
* `TransformStep { r#type, args }` is modelled as the pair `(type, args)` and
  `TransformExpr { steps }` as the list of those pairs (a Lean structure
  cannot be part of the nested inductive).
* The `TransformRegistry` is always the one built by `Default::default()`:
  the `builtins` field is private and the crate exposes no way to add
  built-ins, so `apply_transform_step` is modelled by direct dispatch on the
  five built-in names.  The `js` cargo feature (Boa-backed transforms) is off
  in the default build and is not modelled.
* The Rust recursion (`resolve_value` ↔ `resolve_alias` ↔ the pipeline)
  terminates because the cycle stack is bounded by the token set; Lean needs
  a syntactic decreasing argument, so the recursion is metered by a `fuel`
  parameter that strictly decreases on every recursive call.  Exhaustion
  returns the artificial error `ResolveError.outOfFuel`, which no execution
  started by `resolve_tokens` with its default fuel reaches for the inputs
  considered in the theorems below (claims conditioned on success never see
  it, and concrete claims evaluate away from it).
-/

/-- `TokenValue` from `src/src/design_token.rs` (variants in source order).
`Object` carries an ordered key→value association list, `Transform` the
pipeline steps as (type, args) pairs. -/
inductive TokenValue where
  | string (s : String)
  | number (n : Rat)
  | bool (b : Bool)
  | object (members : List (String × TokenValue))
  | alias (path : String)
  | reference (path : String)
  | color (s : String)
  | dimension (value : Rat) (unit : String)
  | transform (steps : List (String × List TokenValue))
  | null

/-- `Token` from `src/src/design_token.rs`. -/
structure Token where
  name : String
  value : TokenValue
  comment : Option String

/-- `TokenSet = IndexMap<String, Token>` as an ordered association list. -/
abbrev TokenSet := List (String × Token)

/-- `IndexMap::get` — first (and, for a well-formed map, only) binding. -/
def lookupTS : TokenSet → String → Option Token
  | [], _ => none
  | (k, t) :: rest, key => if k = key then some t else lookupTS rest key

/-- `IndexMap::contains_key`. -/
def containsKeyTS (m : TokenSet) (key : String) : Bool :=
  (lookupTS m key).isSome

/-- `IndexMap::insert`: replace in place when the key exists, else append. -/
def insertTS : TokenSet → String → Token → TokenSet
  | [], key, tok => [(key, tok)]
  | (k, t) :: rest, key, tok =>
    if k = key then (k, tok) :: rest else (k, t) :: insertTS rest key tok

/-- `IndexMap::insert` for the value maps nested inside `Object` values. -/
def insertVM : List (String × TokenValue) → String → TokenValue → List (String × TokenValue)
  | [], key, v => [(key, v)]
  | (k, w) :: rest, key, v =>
    if k = key then (k, v) :: rest else (k, w) :: insertVM rest key v

/-- The IndexMap invariant: keys are unique. -/
abbrev keysNodup (m : TokenSet) : Prop := (m.map Prod.fst).Nodup

/-- `ResolveError` from `src/src/design_token.rs`; `outOfFuel` is the
embedding's termination device only (see the module comment). -/
inductive ResolveError where
  | cycleDetected (s : String)
  | tokenNotFound (s : String)
  | typeMismatch (s : String)
  | invalidTransform (s : String)
  | transformFailed (s : String)
  | outOfFuel
deriving DecidableEq

/-- The `thiserror` display strings of `ResolveError`. -/
def ResolveError.message : ResolveError → String
  | .cycleDetected s => "alias cycle detected at token: '" ++ s ++ "'"
  | .tokenNotFound s => "token not found: '" ++ s ++ "'"
  | .typeMismatch s => "type mismatch resolving token: '" ++ s ++ "'"
  | .invalidTransform s => "invalid transform function: '" ++ s ++ "'"
  | .transformFailed s => "failed to apply transform: '" ++ s ++ "'"
  | .outOfFuel => "out of fuel"

/-- `is_css_calcable_string` from `src/src/design_token.rs`. -/
def isCssCalcableString (s : String) : Bool :=
  let t := s.data.dropWhile Char.isWhitespace
  "var(".data.isPrefixOf t || "calc(".data.isPrefixOf t

/-- `fmt_num` from `src/src/design_token.rs`.  Rust prints an f64 with no
fractional part as an integer and other floats in decimal; we print a
rational with denominator 1 as an integer.  (No claim below depends on the
non-integer formatting.) -/
def fmtNum (n : Rat) : String :=
  if n.den = 1 then toString n.num else toString n

/-- `css_calc` from `src/src/design_token.rs`. -/
def cssCalc (lhs op rhs : String) : String :=
  "calc(" ++ lhs ++ " " ++ op ++ " " ++ rhs ++ ")"

/-- `target_path.replace('.', "-")` as used for CSS var generation. -/
def dotToDash (s : String) : String :=
  String.mk (s.data.map (fun c => if c = '.' then '-' else c))

/-- The string value produced by resolving `Reference(target)`:
`format!("var(--{}", ...)` over the dot-to-dash path. -/
def referenceString (targetPath : String) : String :=
  "var(" ++ "--" ++ dotToDash targetPath ++ ")"

/-- `builtin_multiply` from `src/src/design_token.rs` (the registry and
context parameters are unused there). -/
def builtinMultiply (input : Option TokenValue) (args : List TokenValue) :
    Except ResolveError TokenValue :=
  match args.head? with
  | some (.number factor) =>
    match input with
    | some (.number n) => .ok (.number (n * factor))
    | some (.dimension value unit) => .ok (.dimension (value * factor) unit)
    | some (.string s) =>
      -- the source's css-calcable and plain-string arms build the same value
      if isCssCalcableString s then .ok (.string (cssCalc s "*" (fmtNum factor)))
      else .ok (.string (cssCalc s "*" (fmtNum factor)))
    | _ => .error (.transformFailed "multiply expects number/dimension/string input")
  | _ => .error (.invalidTransform "multiply expects number")

/-- The shared body of `builtin_add` / `builtin_subtract` after the argument
has been split into a numeric part and an optional unit; `op` is "+" or "-",
`combine` the numeric operation, and the strings are the source's error
texts. -/
def builtinAddSubCore (combine : Rat → Rat → Rat) (op : String)
    (mismatchMsg inputMsg : String)
    (argVal : Rat) (argUnit : Option String) (input : Option TokenValue) :
    Except ResolveError TokenValue :=
  match input with
  | some (.number n) => .ok (.number (combine n argVal))
  | some (.dimension value unit) =>
    match argUnit with
    | some u =>
      if u ≠ unit then .error (.transformFailed mismatchMsg)
      else .ok (.dimension (combine value argVal) unit)
    | none => .ok (.dimension (combine value argVal) unit)
  | some (.string s) =>
    let rhs := match argUnit with
      | some u => fmtNum argVal ++ u
      | none => fmtNum argVal
    if isCssCalcableString s then .ok (.string (cssCalc s op rhs))
    else .ok (.string (cssCalc s op rhs))
  | _ => .error (.transformFailed inputMsg)

/-- `builtin_add` from `src/src/design_token.rs`. -/
def builtinAdd (input : Option TokenValue) (args : List TokenValue) :
    Except ResolveError TokenValue :=
  match args.head? with
  | some (.number n) =>
    builtinAddSubCore (· + ·) "+" "add unit mismatch"
      "add expects number/dimension/string input" n none input
  | some (.dimension value unit) =>
    builtinAddSubCore (· + ·) "+" "add unit mismatch"
      "add expects number/dimension/string input" value (some unit) input
  | _ => .error (.invalidTransform "add expects number or dimension")

/-- `builtin_subtract` from `src/src/design_token.rs`. -/
def builtinSubtract (input : Option TokenValue) (args : List TokenValue) :
    Except ResolveError TokenValue :=
  match args.head? with
  | some (.number n) =>
    builtinAddSubCore (· - ·) "-" "subtract unit mismatch"
      "subtract expects number/dimension/string input" n none input
  | some (.dimension value unit) =>
    builtinAddSubCore (· - ·) "-" "subtract unit mismatch"
      "subtract expects number/dimension/string input" value (some unit) input
  | _ => .error (.invalidTransform "subtract expects number or dimension")

/-- `builtin_divide` from `src/src/design_token.rs`. -/
def builtinDivide (input : Option TokenValue) (args : List TokenValue) :
    Except ResolveError TokenValue :=
  match args.head? with
  | some (.number divisor) =>
    if divisor = 0 then .error (.transformFailed "divide by zero")
    else
      match input with
      | some (.number n) => .ok (.number (n / divisor))
      | some (.dimension value unit) => .ok (.dimension (value / divisor) unit)
      | some (.string s) =>
        if isCssCalcableString s then .ok (.string (cssCalc s "/" (fmtNum divisor)))
        else .ok (.string (cssCalc s "/" (fmtNum divisor)))
      | _ => .error (.transformFailed "divide expects number/dimension/string input")
  | _ => .error (.invalidTransform "divide expects number")

/-- The argument extraction of `builtin_alias`: `args.get(0)` accepted when it
is a `String` or an `Alias` value. -/
def aliasArg (args : List TokenValue) : Option String :=
  args.head?.bind fun v =>
    match v with
    | .string s => some s
    | .alias s => some s
    | _ => none

/-- The pending work of the mutually recursive Rust functions, bundled so the
whole recursion is a single Lean function that is structural in its fuel:
`value` is `resolve_value`, `aliasTarget` is `resolve_alias`, `pipeline` is
`apply_transform_pipeline`'s loop (with the running `current` input),
`step` is `apply_transform_step`, and `members` is `resolve_value`'s
`Object` loop (with the rebuilt map accumulated in `acc`). -/
inductive Job where
  | value (name : String) (val : TokenValue)
  | aliasTarget (name : String) (target : String)
  | pipeline (name : String) (steps : List (String × List TokenValue))
      (current : Option TokenValue)
  | step (name : String) (ty : String) (args : List TokenValue)
      (input : Option TokenValue)
  | members (name : String) (acc : List (String × TokenValue))
      (rest : List (String × TokenValue))

/-- `resolved_token_comment` from `src/src/design_token.rs`. -/
def resolvedTokenComment (resolved tokens : TokenSet) (key : String) :
    Option String :=
  match lookupTS resolved key with
  | some t => t.comment
  | none => (lookupTS tokens key).bind Token.comment

/-- The recursive core of the resolver (see `Job`).  Returns the resolved
value together with the updated memoized output set; the stack is the
explicit cycle-detection path of the source, pushed for recursive calls and
implicitly popped on return. -/
def run : Nat → Job → TokenSet → TokenSet → List String →
    Except ResolveError (TokenValue × TokenSet)
  | 0, _, _, _, _ => .error .outOfFuel
  | Nat.succ f, job, tokens, resolved, stack =>
    match job with
    | .value name val =>
      match val with
      | .transform steps => run f (.pipeline name steps none) tokens resolved stack
      | .reference targetPath =>
        if containsKeyTS tokens targetPath then
          .ok (.string (referenceString targetPath), resolved)
        else
          .error (.tokenNotFound (targetPath ++ " (referenced by " ++ name ++ ")"))
      | .alias targetPath => run f (.aliasTarget name targetPath) tokens resolved stack
      | .object members => run f (.members name [] members) tokens resolved stack
      | other => .ok (other, resolved)
    | .aliasTarget name targetPath =>
      -- `stack.contains(&target_path.to_string())`
      if targetPath ∈ stack then
        .error (.cycleDetected targetPath)
      else
        match lookupTS tokens targetPath with
        | none => .error (.tokenNotFound (targetPath ++ " (referenced by " ++ name ++ ")"))
        | some targetToken =>
          match lookupTS resolved targetPath with
          | some resolvedToken => .ok (resolvedToken.value, resolved)
          | none =>
            match run f (.value targetPath targetToken.value) tokens resolved
                (stack ++ [targetPath]) with
            | .error e => .error e
            | .ok (resolvedValue, resolved') =>
              .ok (resolvedValue,
                insertTS resolved' targetPath
                  ⟨targetPath, resolvedValue,
                    resolvedTokenComment resolved' tokens targetPath⟩)
    | .pipeline name steps current =>
      match steps with
      | [] => .ok (current.getD .null, resolved)
      | (ty, args) :: rest =>
        match run f (.step name ty args current) tokens resolved stack with
        | .error e => .error e
        | .ok (v, resolved') =>
          run f (.pipeline name rest (some v)) tokens resolved' stack
    | .step name ty args input =>
      if ty = "alias" then
        match aliasArg args with
        | some target => run f (.aliasTarget name target) tokens resolved stack
        | none => .error (.invalidTransform "alias requires string arg")
      else if ty = "multiply" then
        (builtinMultiply input args).map (fun v => (v, resolved))
      else if ty = "add" then
        (builtinAdd input args).map (fun v => (v, resolved))
      else if ty = "subtract" then
        (builtinSubtract input args).map (fun v => (v, resolved))
      else if ty = "divide" then
        (builtinDivide input args).map (fun v => (v, resolved))
      else
        .error (.invalidTransform ("unknown transform: " ++ ty))
    | .members name acc rest =>
      match rest with
      | [] => .ok (.object acc, resolved)
      | (k, v) :: rest' =>
        match run f (.value name v) tokens resolved stack with
        | .error e => .error e
        | .ok (rv, resolved') =>
          run f (.members name (insertVM acc k rv) rest') tokens resolved' stack

-- Structural size of a value, used only to pick a large enough fuel.
mutual
def valueFuel : TokenValue → Nat
  | .object ms => 1 + memFuel ms
  | .transform steps => 1 + stepFuel steps
  | _ => 1
termination_by structural v => v
def memFuel : List (String × TokenValue) → Nat
  | [] => 1
  | (_, v) :: rest => 1 + valueFuel v + memFuel rest
termination_by structural l => l
def stepFuel : List (String × List TokenValue) → Nat
  | [] => 1
  | (_, args) :: rest => 1 + argFuel args + stepFuel rest
termination_by structural l => l
def argFuel : List TokenValue → Nat
  | [] => 1
  | v :: rest => 1 + valueFuel v + argFuel rest
termination_by structural l => l
end

/-- Combined size of all values of a token set. -/
def tokensFuel : TokenSet → Nat
  | [] => 1
  | (_, t) :: rest => 1 + valueFuel t.value + tokensFuel rest

/-- The fuel `resolve_tokens` hands to each top-level entry; any bound works
for the success-conditioned theorems, and this one is large enough for the
alias-free sets of the idempotence claim and for all concrete examples. -/
def topFuel (tokens : TokenSet) : Nat := tokensFuel tokens

/-- `resolve_value` from `src/src/design_token.rs` (fuel-metered). -/
def resolve_value (fuel : Nat) (name : String) (val : TokenValue)
    (tokens resolved : TokenSet) (stack : List String) :
    Except ResolveError (TokenValue × TokenSet) :=
  run fuel (.value name val) tokens resolved stack

/-- `resolve_alias` from `src/src/design_token.rs` (fuel-metered). -/
def resolve_alias (fuel : Nat) (name targetPath : String)
    (tokens resolved : TokenSet) (stack : List String) :
    Except ResolveError (TokenValue × TokenSet) :=
  run fuel (.aliasTarget name targetPath) tokens resolved stack

/-- The top-level loop of `resolve_tokens_with_registry`: iterate the source
entries in order, skip keys already memoized, resolve each remaining value
with a fresh stack `[key]`, wrap a propagated `CycleDetected` with the
top-level key, and insert the result under the key with the entry's own
comment. -/
def resolveEntries (tokens : TokenSet) :
    List (String × Token) → TokenSet → Except ResolveError TokenSet
  | [], resolved => .ok resolved
  | (key, token) :: rest, resolved =>
    if containsKeyTS resolved key then
      resolveEntries tokens rest resolved
    else
      match run (topFuel tokens) (.value key token.value) tokens resolved [key] with
      | .error (.cycleDetected s) => .error (.cycleDetected (key ++ " -> " ++ s))
      | .error e => .error e
      | .ok (val, resolved') =>
        resolveEntries tokens rest
          (insertTS resolved' key ⟨key, val, token.comment⟩)

/-- `resolve_tokens` from `src/src/design_token.rs` (which calls
`resolve_tokens_with_registry` with the default registry). -/
def resolve_tokens (tokens : TokenSet) : Except ResolveError TokenSet :=
  resolveEntries tokens tokens []

/-! ### Concrete token sets used by the claims -/

/-- The two-token cyclic set of the cycle-detection claim. -/
def cycleSet : TokenSet :=
  [("a", ⟨"a", .alias "b", none⟩), ("b", ⟨"b", .alias "a", none⟩)]

/-- A set whose first entry is a self-cycle and whose second entry is an
alias to a path absent from the set. -/
def cycleThenMissingSet : TokenSet :=
  [("c", ⟨"c", .alias "c", none⟩), ("a", ⟨"a", .alias "b", none⟩)]

/-- The one-token dangling-alias set of the missing-target claim. -/
def missingTargetSet : TokenSet := [("a", ⟨"a", .alias "b", none⟩)]

/-- The dimension/transform set of the transform-arithmetic claim. -/
def transformSet : TokenSet :=
  [("base", ⟨"base", .dimension 4 "px", none⟩),
   ("big", ⟨"big", .transform [("alias", [.string "base"]),
                               ("multiply", [.number 4])], none⟩)]

/-- A set with no `Alias`/`Transform` anywhere: one self-targeted
`Reference` token whose `name` field disagrees with its key. -/
def referenceOnlySet : TokenSet := [("r", ⟨"s", .reference "r", none⟩)]

/-- A commented target and an uncommented alias pointing at it. -/
def commentSet : TokenSet :=
  [("b", ⟨"b", .string "#fff", some "blue"⟩), ("a", ⟨"a", .alias "b", none⟩)]

/-- Recognizer for a `TokenNotFound` outcome. -/
def isTokenNotFound : Except ResolveError TokenSet → Bool
  | .error (.tokenNotFound _) => true
  | _ => false

/-! ### C1 — cycle detection and the shape of the cycle message -/

/-- C1, counterexample: on `{a: alias(b), b: alias(a)}` the resolver does
return a `CycleDetected` error, but its chain is `"a -> a"` — the message
does not contain the full cycle `"a -> b -> a"`, because only the top-level
loop prepends its key; intermediate alias hops do not extend the chain. -/
theorem c1_counterexample :
    resolve_tokens cycleSet = .error (.cycleDetected "a -> a")
    ∧ ¬ ("a -> b -> a".data <:+:
          (ResolveError.cycleDetected "a -> a").message.data) :=
  ⟨rfl, by decide⟩

/-- C1, amended: resolving `{a: alias(b), b: alias(a)}` terminates with a
`CycleDetected` error (it never succeeds), and the error's message names the
chain `"a -> a"`: the top-level key prepended to the path at which the cycle
was detected.  The chain is not accumulated hop by hop. -/
theorem c1_cycle_message :
    resolve_tokens cycleSet = .error (.cycleDetected "a -> a")
    ∧ ("a -> a".data <:+:
        (ResolveError.cycleDetected "a -> a").message.data) :=
  ⟨rfl, by decide⟩

/-! ### C5 — missing alias/reference targets (concrete part) -/

/-- C5, counterexample: `cycleThenMissingSet` contains a token `a` whose
value is `Alias "b"` with `"b"` absent, yet resolution fails with
`CycleDetected` (the earlier self-cycle aborts the run first), not with
`TokenNotFound`. -/
theorem c5_counterexample :
    lookupTS cycleThenMissingSet "b" = none
    ∧ (lookupTS cycleThenMissingSet "a").map Token.value = some (.alias "b")
    ∧ resolve_tokens cycleThenMissingSet = .error (.cycleDetected "c -> c")
    ∧ isTokenNotFound (resolve_tokens cycleThenMissingSet) = false :=
  ⟨rfl, rfl, rfl, rfl⟩

/-! ### C6 — transform pipeline arithmetic -/

/-- C6: `{base: dimension(4,"px"), big: transform([alias(base),
multiply(4)])}` resolves; the pipeline starts with no input, `alias(base)`
yields base's resolved value `dimension(4,"px")` and `multiply(4)` scales
the numeric part keeping the unit, so `big` resolves to
`dimension(16,"px")`. -/
theorem c6_transform_arithmetic :
    resolve_tokens transformSet =
      .ok [("base", ⟨"base", .dimension 4 "px", none⟩),
           ("big", ⟨"big", .dimension 16 "px", none⟩)] := by
  have harith : (4 : Rat) * 4 = 16 := by norm_num
  have hrun : resolve_tokens transformSet =
      .ok [("base", ⟨"base", .dimension 4 "px", none⟩),
           ("big", ⟨"big", .dimension ((4 : Rat) * 4) "px", none⟩)] := rfl
  rw [hrun, harith]

/-! ### C7 — idempotence on fully-resolved sets (concrete part) -/

/-- C7, counterexample: `referenceOnlySet` has no `Alias`/`Transform` value
at any depth, yet resolution does not return it unchanged: the `Reference`
value is rewritten to its `var(--...)` string and the token's `name` field
is rewritten from `"s"` to the owning key `"r"`. -/
theorem c7_counterexample :
    resolve_tokens referenceOnlySet ≠ .ok referenceOnlySet := by
  have h : resolve_tokens referenceOnlySet =
      .ok [("r", ⟨"r", .string "var(--r)", none⟩)] := rfl
  rw [h]
  simp [referenceOnlySet]

/-! ### C8 — alias comments (concrete part) -/

/-- C8, counterexample: in `commentSet` the alias `a` has no comment and its
target `b` carries comment `"blue"`, yet the resolved `a` still has no
comment — the target's comment is not inherited. -/
theorem c8_counterexample :
    (lookupTS commentSet "a").map Token.comment = some none
    ∧ (lookupTS commentSet "b").map Token.comment = some (some "blue")
    ∧ (lookupTS commentSet "a").map Token.value = some (.alias "b")
    ∧ resolve_tokens commentSet =
        .ok [("b", ⟨"b", .string "#fff", some "blue"⟩),
             ("a", ⟨"a", .string "#fff", none⟩)]
    ∧ (none : Option String) ≠ some "blue" :=
  ⟨rfl, rfl, rfl, rfl, by decide⟩

/-! ### Association-list lemmas -/

theorem lookupTS_insertTS (m : TokenSet) (k : String) (t : Token) (k' : String) :
    lookupTS (insertTS m k t) k' = if k = k' then some t else lookupTS m k' := by
  induction m with
  | nil => simp [insertTS, lookupTS]
  | cons hd rest ih =>
    obtain ⟨hk, ht⟩ := hd
    by_cases h1 : hk = k
    · subst h1
      by_cases h2 : hk = k' <;> simp [insertTS, lookupTS, h2]
    · by_cases h2 : hk = k'
      · subst h2
        have : ¬ k = hk := fun h => h1 h.symm
        simp [insertTS, lookupTS, h1, this]
      · simp [insertTS, lookupTS, h1, h2, ih]

theorem lookupTS_mem {m : TokenSet} {k : String} {t : Token}
    (h : lookupTS m k = some t) : (k, t) ∈ m := by
  induction m with
  | nil => simp [lookupTS] at h
  | cons hd rest ih =>
    obtain ⟨hk, ht⟩ := hd
    by_cases h1 : hk = k
    · subst h1
      simp [lookupTS] at h
      subst h
      exact List.mem_cons_self _ _
    · simp [lookupTS, h1] at h
      exact List.mem_cons_of_mem _ (ih h)

theorem mem_lookupTS_of_nodup {m : TokenSet} (hnd : keysNodup m)
    {k : String} {t : Token} (h : (k, t) ∈ m) : lookupTS m k = some t := by
  induction m with
  | nil => simp at h
  | cons hd rest ih =>
    obtain ⟨hk, ht⟩ := hd
    simp only [keysNodup, List.map_cons, List.nodup_cons] at hnd
    rcases List.mem_cons.mp h with h1 | h1
    · rw [Prod.ext_iff] at h1
      obtain ⟨h2, h3⟩ := h1
      simp at h2 h3
      subst h2; subst h3
      simp [lookupTS]
    · have hne : hk ≠ k := by
        intro he
        subst he
        exact hnd.1 (List.mem_map.mpr ⟨(hk, t), h1, rfl⟩)
      simp [lookupTS, hne]
      exact ih hnd.2 h1

theorem insertVM_mem {acc : List (String × TokenValue)} {k : String}
    {v : TokenValue} {p : String × TokenValue} (h : p ∈ insertVM acc k v) :
    p ∈ acc ∨ p.2 = v := by
  induction acc with
  | nil =>
    simp [insertVM] at h
    subst h
    exact Or.inr rfl
  | cons hd rest ih =>
    obtain ⟨hk, hv⟩ := hd
    by_cases h1 : hk = k
    · subst h1
      simp [insertVM] at h
      rcases h with h | h
      · subst h; exact Or.inr rfl
      · exact Or.inl (List.mem_cons_of_mem _ h)
    · simp [insertVM, h1] at h
      rcases h with h | h
      · subst h; exact Or.inl (List.mem_cons_self _ _)
      · rcases ih h with h2 | h2
        · exact Or.inl (List.mem_cons_of_mem _ h2)
        · exact Or.inr h2

theorem insertVM_append {acc : List (String × TokenValue)} {k : String}
    (v : TokenValue) (h : k ∉ acc.map Prod.fst) :
    insertVM acc k v = acc ++ [(k, v)] := by
  induction acc with
  | nil => simp [insertVM]
  | cons hd rest ih =>
    obtain ⟨hk, hv⟩ := hd
    simp at h
    have hne : hk ≠ k := fun he => h.1 he.symm
    simp [insertVM, hne]
    exact ih (by simpa using h.2)

/-! ### The resolved-output invariant -/

/-- A value free of `Alias` and `Transform` variants at every depth — the
shape the spec requires of resolver output. -/
inductive NoAT : TokenValue → Prop where
  | string (s : String) : NoAT (.string s)
  | number (n : Rat) : NoAT (.number n)
  | boolv (b : Bool) : NoAT (.bool b)
  | color (s : String) : NoAT (.color s)
  | dimension (v : Rat) (u : String) : NoAT (.dimension v u)
  | nullv : NoAT .null
  | reference (p : String) : NoAT (.reference p)
  | object (ms : List (String × TokenValue))
      (h : ∀ p ∈ ms, NoAT p.2) : NoAT (.object ms)

/-- Everything the resolver guarantees of each binding of the memoized
output map `R` built from source set `tokens`: the key comes from the source
set, the token's `name` is the key, the `comment` is the source token's own
comment, the value is alias/transform-free, and bindings of alias- or
reference-valued source tokens are tied to their targets. -/
def ResolvedInv (tokens R : TokenSet) : Prop :=
  ∀ k t, lookupTS R k = some t →
    (lookupTS tokens k).isSome = true
    ∧ t.name = k
    ∧ t.comment = (lookupTS tokens k).bind Token.comment
    ∧ NoAT t.value
    ∧ (∀ b, (lookupTS tokens k).map Token.value = some (.alias b) →
        ∃ tb, lookupTS R b = some tb ∧ tb.value = t.value)
    ∧ (∀ p, (lookupTS tokens k).map Token.value = some (.reference p) →
        (lookupTS tokens p).isSome = true ∧ t.value = .string (referenceString p))

/-- What a successful `run` additionally says about its returned value,
depending on the job: resolving an `Alias`/alias target leaves the target
bound in the output map with the same value, and resolving a `Reference`
requires the target to exist and returns its indirection string. -/
def Post (tokens : TokenSet) : Job → TokenSet → TokenValue → Prop
  | .value _ val, R', v =>
    (∀ b, val = .alias b → ∃ tb, lookupTS R' b = some tb ∧ tb.value = v)
    ∧ (∀ p, val = .reference p →
        (lookupTS tokens p).isSome = true ∧ v = .string (referenceString p))
  | .aliasTarget _ target, R', v =>
    ∃ tt, lookupTS R' target = some tt ∧ tt.value = v
  | _, _, _ => True

/-- Side conditions a job's inputs must satisfy for the invariant to be
preserved: accumulated object members and the pipeline's running value are
alias/transform-free. -/
def JobOK : Job → Prop
  | .members _ acc _ => ∀ p ∈ acc, NoAT p.2
  | .pipeline _ _ current => ∀ cv, current = some cv → NoAT cv
  | _ => True

theorem builtinAddSubCore_noAT {c : Rat → Rat → Rat} {op m1 m2 : String}
    {a : Rat} {u : Option String} {input : Option TokenValue} {w : TokenValue}
    (h : builtinAddSubCore c op m1 m2 a u input = .ok w) : NoAT w := by
  unfold builtinAddSubCore at h
  repeat' split at h
  all_goals first
    | (cases h; constructor)
    | simp at h

theorem builtinMultiply_noAT {input : Option TokenValue}
    {args : List TokenValue} {w : TokenValue}
    (h : builtinMultiply input args = .ok w) : NoAT w := by
  unfold builtinMultiply at h
  repeat' split at h
  all_goals first
    | (cases h; constructor)
    | simp at h

theorem builtinAdd_noAT {input : Option TokenValue}
    {args : List TokenValue} {w : TokenValue}
    (h : builtinAdd input args = .ok w) : NoAT w := by
  unfold builtinAdd at h
  split at h
  · exact builtinAddSubCore_noAT h
  · exact builtinAddSubCore_noAT h
  · nomatch h

theorem builtinSubtract_noAT {input : Option TokenValue}
    {args : List TokenValue} {w : TokenValue}
    (h : builtinSubtract input args = .ok w) : NoAT w := by
  unfold builtinSubtract at h
  split at h
  · exact builtinAddSubCore_noAT h
  · exact builtinAddSubCore_noAT h
  · nomatch h

theorem builtinDivide_noAT {input : Option TokenValue}
    {args : List TokenValue} {w : TokenValue}
    (h : builtinDivide input args = .ok w) : NoAT w := by
  unfold builtinDivide at h
  repeat' split at h
  all_goals first
    | (cases h; constructor)
    | simp at h

/-! ### Introduction and elimination helpers for `Post` -/

theorem post_value_not_ar {tokens : TokenSet} {name : String}
    {val : TokenValue} {R' : TokenSet} {v : TokenValue}
    (h1 : ∀ b, val ≠ TokenValue.alias b)
    (h2 : ∀ p, val ≠ TokenValue.reference p) :
    Post tokens (.value name val) R' v := by
  dsimp only [Post]
  exact ⟨fun b hb => absurd hb (h1 b), fun p hp => absurd hp (h2 p)⟩

theorem post_value_alias {tokens : TokenSet} {name tp : String}
    {R' : TokenSet} {v : TokenValue}
    (h : ∃ tt, lookupTS R' tp = some tt ∧ tt.value = v) :
    Post tokens (.value name (.alias tp)) R' v := by
  dsimp only [Post]
  refine ⟨fun b hb => ?_, fun p hp => (nomatch hp)⟩
  injection hb with hb'
  subst hb'
  exact h

theorem post_value_reference {tokens : TokenSet} {name rp : String}
    {R' : TokenSet} {v : TokenValue}
    (h1 : (lookupTS tokens rp).isSome = true)
    (h2 : v = .string (referenceString rp)) :
    Post tokens (.value name (.reference rp)) R' v := by
  dsimp only [Post]
  refine ⟨fun b hb => (nomatch hb), fun p hp => ?_⟩
  injection hp with hp'
  subst hp'
  exact ⟨h1, h2⟩

theorem post_aliasTarget_intro {tokens : TokenSet} {name target : String}
    {R' : TokenSet} {v : TokenValue} (tt : Token)
    (h1 : lookupTS R' target = some tt) (h2 : tt.value = v) :
    Post tokens (.aliasTarget name target) R' v := by
  dsimp only [Post]
  exact ⟨tt, h1, h2⟩

theorem post_trivial {tokens : TokenSet} {job : Job} {R' : TokenSet}
    {v : TokenValue}
    (h : (match job with
          | .value _ _ => False
          | .aliasTarget _ _ => False
          | _ => True)) :
    Post tokens job R' v := by
  cases job with
  | value name val => exact absurd h (by simp)
  | aliasTarget name target => exact absurd h (by simp)
  | pipeline name steps current => simp [Post]
  | step name ty args input => simp [Post]
  | members name acc rest => simp [Post]

theorem post_value_elim_alias {tokens : TokenSet} {name : String}
    {val : TokenValue} {R' : TokenSet} {v : TokenValue} {b : String}
    (hp : Post tokens (.value name val) R' v) (hv : val = .alias b) :
    ∃ tb, lookupTS R' b = some tb ∧ tb.value = v := by
  simp only [Post] at hp
  exact hp.1 b hv

theorem post_value_elim_reference {tokens : TokenSet} {name : String}
    {val : TokenValue} {R' : TokenSet} {v : TokenValue} {p : String}
    (hp : Post tokens (.value name val) R' v) (hv : val = .reference p) :
    (lookupTS tokens p).isSome = true ∧ v = .string (referenceString p) := by
  simp only [Post] at hp
  exact hp.2 p hv

theorem post_aliasTarget_elim {tokens : TokenSet} {name target : String}
    {R' : TokenSet} {v : TokenValue}
    (hp : Post tokens (.aliasTarget name target) R' v) :
    ∃ tt, lookupTS R' target = some tt ∧ tt.value = v := by
  simp only [Post] at hp
  exact hp

/-! ### The master preservation lemma for `run` -/

theorem run_master (tokens : TokenSet) : ∀ fuel job R stack v R',
    run fuel job tokens R stack = .ok (v, R') →
    ResolvedInv tokens R → JobOK job →
    ResolvedInv tokens R'
    ∧ (∀ k t, lookupTS R k = some t → lookupTS R' k = some t)
    ∧ (∀ k, lookupTS R k = none → k ∈ stack → lookupTS R' k = none)
    ∧ NoAT v
    ∧ Post tokens job R' v := by
  intro fuel
  induction fuel with
  | zero =>
    intro job R stack v R' h _ _
    simp [run] at h
  | succ f ih =>
    intro job R stack v R' h hInv hJob
    cases job with
    | value name val =>
      rcases val with s | n | b | ms | tp | rp | cs | ⟨dv, du⟩ | steps | _
      · -- String
        simp only [run, Except.ok.injEq, Prod.mk.injEq] at h
        obtain ⟨hv, hR⟩ := h
        subst hv; subst hR
        exact ⟨hInv, fun k t a => a, fun k hk _ => hk, NoAT.string s,
          post_value_not_ar (fun b hb => (nomatch hb)) (fun p hp => (nomatch hp))⟩
      · -- Number
        simp only [run, Except.ok.injEq, Prod.mk.injEq] at h
        obtain ⟨hv, hR⟩ := h
        subst hv; subst hR
        exact ⟨hInv, fun k t a => a, fun k hk _ => hk, NoAT.number n,
          post_value_not_ar (fun b hb => (nomatch hb)) (fun p hp => (nomatch hp))⟩
      · -- Bool
        simp only [run, Except.ok.injEq, Prod.mk.injEq] at h
        obtain ⟨hv, hR⟩ := h
        subst hv; subst hR
        exact ⟨hInv, fun k t a => a, fun k hk _ => hk, NoAT.boolv b,
          post_value_not_ar (fun b hb => (nomatch hb)) (fun p hp => (nomatch hp))⟩
      · -- Object
        simp only [run] at h
        obtain ⟨h1, h2, h3, h4, _⟩ :=
          ih (.members name [] ms) R stack v R' h hInv (by simp [JobOK])
        exact ⟨h1, h2, h3, h4,
          post_value_not_ar (fun b hb => (nomatch hb)) (fun p hp => (nomatch hp))⟩
      · -- Alias
        simp only [run] at h
        obtain ⟨h1, h2, h3, h4, h5⟩ :=
          ih (.aliasTarget name tp) R stack v R' h hInv (by simp [JobOK])
        exact ⟨h1, h2, h3, h4, post_value_alias (post_aliasTarget_elim h5)⟩
      · -- Reference
        simp only [run] at h
        split at h
        · rename_i hct
          simp only [Except.ok.injEq, Prod.mk.injEq] at h
          obtain ⟨hv, hR⟩ := h
          subst hv; subst hR
          simp only [containsKeyTS] at hct
          exact ⟨hInv, fun k t a => a, fun k hk _ => hk, NoAT.string _,
            post_value_reference hct rfl⟩
        · simp at h
      · -- Color
        simp only [run, Except.ok.injEq, Prod.mk.injEq] at h
        obtain ⟨hv, hR⟩ := h
        subst hv; subst hR
        exact ⟨hInv, fun k t a => a, fun k hk _ => hk, NoAT.color cs,
          post_value_not_ar (fun b hb => (nomatch hb)) (fun p hp => (nomatch hp))⟩
      · -- Dimension
        simp only [run, Except.ok.injEq, Prod.mk.injEq] at h
        obtain ⟨hv, hR⟩ := h
        subst hv; subst hR
        exact ⟨hInv, fun k t a => a, fun k hk _ => hk, NoAT.dimension dv du,
          post_value_not_ar (fun b hb => (nomatch hb)) (fun p hp => (nomatch hp))⟩
      · -- Transform
        simp only [run] at h
        obtain ⟨h1, h2, h3, h4, _⟩ :=
          ih (.pipeline name steps none) R stack v R' h hInv (by simp [JobOK])
        exact ⟨h1, h2, h3, h4,
          post_value_not_ar (fun b hb => (nomatch hb)) (fun p hp => (nomatch hp))⟩
      · -- Null
        simp only [run, Except.ok.injEq, Prod.mk.injEq] at h
        obtain ⟨hv, hR⟩ := h
        subst hv; subst hR
        exact ⟨hInv, fun k t a => a, fun k hk _ => hk, NoAT.nullv,
          post_value_not_ar (fun b hb => (nomatch hb)) (fun p hp => (nomatch hp))⟩
    | aliasTarget name target =>
      simp only [run] at h
      split at h
      · simp at h
      · rename_i hstack
        split at h
        · simp at h
        · rename_i targetToken hlt
          split at h
          · rename_i resolvedToken hlr
            simp only [Except.ok.injEq, Prod.mk.injEq] at h
            obtain ⟨hv, hR⟩ := h
            subst hv; subst hR
            refine ⟨hInv, fun k t a => a, fun k hk _ => hk,
              (hInv target resolvedToken hlr).2.2.2.1, ?_⟩
            exact post_aliasTarget_intro resolvedToken hlr rfl
          · rename_i hlr
            split at h
            · simp at h
            · rename_i rv R1 hrec
              simp only [Except.ok.injEq, Prod.mk.injEq] at h
              obtain ⟨hv, hR⟩ := h
              subst hv; subst hR
              obtain ⟨hInv1, hmono1, hfresh1, hnoat1, hpost1⟩ :=
                ih _ _ _ _ _ hrec hInv (by simp [JobOK])
              have hR1none : lookupTS R1 target = none :=
                hfresh1 target hlr (by simp)
              have hcom : resolvedTokenComment R1 tokens target =
                  (lookupTS tokens target).bind Token.comment := by
                simp [resolvedTokenComment, hR1none]
              have hlook := fun k' => lookupTS_insertTS R1 target
                ⟨target, rv, resolvedTokenComment R1 tokens target⟩ k'
              refine ⟨?_, ?_, ?_, hnoat1, ?_⟩
              · intro k t hkt
                rw [hlook k] at hkt
                by_cases hk : target = k
                · subst hk
                  rw [if_pos rfl] at hkt
                  injection hkt with hkt'
                  subst hkt'
                  refine ⟨by rw [hlt]; rfl, rfl, hcom, hnoat1, ?_, ?_⟩
                  · intro b hb
                    rw [hlt] at hb
                    simp only [Option.map_some'] at hb
                    injection hb with hb'
                    obtain ⟨tb, htb, htbv⟩ := post_value_elim_alias hpost1 hb'
                    by_cases hbt : target = b
                    · rw [← hbt, hR1none] at htb
                      simp at htb
                    · exact ⟨tb, by rw [hlook b, if_neg hbt]; exact htb, htbv⟩
                  · intro p hp
                    rw [hlt] at hp
                    simp only [Option.map_some'] at hp
                    injection hp with hp'
                    exact post_value_elim_reference hpost1 hp'
                · rw [if_neg hk] at hkt
                  obtain ⟨q1, q2, q3, q4, q5, q6⟩ := hInv1 k t hkt
                  refine ⟨q1, q2, q3, q4, ?_, q6⟩
                  intro b hb
                  obtain ⟨tb, htb, htbv⟩ := q5 b hb
                  by_cases hbt : target = b
                  · rw [← hbt, hR1none] at htb
                    simp at htb
                  · exact ⟨tb, by rw [hlook b, if_neg hbt]; exact htb, htbv⟩
              · intro k t hkt
                have h1 := hmono1 k t hkt
                have hk : ¬ target = k := by
                  intro he
                  rw [← he, hlr] at hkt
                  simp at hkt
                rw [hlook k, if_neg hk]
                exact h1
              · intro k hk hkst
                have hkt : ¬ target = k := by
                  intro he
                  rw [he] at hstack
                  exact hstack hkst
                have h1 := hfresh1 k hk (List.mem_append_left _ hkst)
                rw [hlook k, if_neg hkt]
                exact h1
              · exact post_aliasTarget_intro
                  ⟨target, rv, resolvedTokenComment R1 tokens target⟩
                  (by rw [hlook target, if_pos rfl]) rfl
    | pipeline name steps current =>
      cases steps with
      | nil =>
        simp only [run, Except.ok.injEq, Prod.mk.injEq] at h
        obtain ⟨hv, hR⟩ := h
        subst hv; subst hR
        refine ⟨hInv, fun k t a => a, fun k hk _ => hk, ?_, post_trivial True.intro⟩
        cases current with
        | none => exact NoAT.nullv
        | some cv =>
          simp only [JobOK] at hJob
          exact hJob cv rfl
      | cons stp rest =>
        obtain ⟨ty, args⟩ := stp
        simp only [run] at h
        split at h
        · simp at h
        · rename_i v1 R1 hrec1
          obtain ⟨hInv1, hmono1, hfresh1, hnoat1, _⟩ :=
            ih _ _ _ _ _ hrec1 hInv (by simp [JobOK])
          obtain ⟨hInv2, hmono2, hfresh2, hnoat2, _⟩ :=
            ih _ _ _ _ _ h hInv1 (by
              simp only [JobOK]
              intro cv hcv
              injection hcv with hcv'
              rw [← hcv']
              exact hnoat1)
          exact ⟨hInv2, fun k t hk => hmono2 k t (hmono1 k t hk),
            fun k hk hs => hfresh2 k (hfresh1 k hk hs) hs, hnoat2,
            post_trivial True.intro⟩
    | step name ty args input =>
      simp only [run] at h
      split at h
      · split at h
        · rename_i target harg
          obtain ⟨h1, h2, h3, h4, _⟩ :=
            ih _ _ _ _ _ h hInv (by simp [JobOK])
          exact ⟨h1, h2, h3, h4, post_trivial True.intro⟩
        · simp at h
      · split at h
        · cases hb : builtinMultiply input args with
          | error e => rw [hb] at h; simp [Except.map] at h
          | ok w =>
            rw [hb] at h
            simp only [Except.map, Except.ok.injEq, Prod.mk.injEq] at h
            obtain ⟨hv, hR⟩ := h
            subst hv; subst hR
            exact ⟨hInv, fun k t a => a, fun k hk _ => hk,
              builtinMultiply_noAT hb, post_trivial True.intro⟩
        · split at h
          · cases hb : builtinAdd input args with
            | error e => rw [hb] at h; simp [Except.map] at h
            | ok w =>
              rw [hb] at h
              simp only [Except.map, Except.ok.injEq, Prod.mk.injEq] at h
              obtain ⟨hv, hR⟩ := h
              subst hv; subst hR
              exact ⟨hInv, fun k t a => a, fun k hk _ => hk,
                builtinAdd_noAT hb, post_trivial True.intro⟩
          · split at h
            · cases hb : builtinSubtract input args with
              | error e => rw [hb] at h; simp [Except.map] at h
              | ok w =>
                rw [hb] at h
                simp only [Except.map, Except.ok.injEq, Prod.mk.injEq] at h
                obtain ⟨hv, hR⟩ := h
                subst hv; subst hR
                exact ⟨hInv, fun k t a => a, fun k hk _ => hk,
                  builtinSubtract_noAT hb, post_trivial True.intro⟩
            · split at h
              · cases hb : builtinDivide input args with
                | error e => rw [hb] at h; simp [Except.map] at h
                | ok w =>
                  rw [hb] at h
                  simp only [Except.map, Except.ok.injEq, Prod.mk.injEq] at h
                  obtain ⟨hv, hR⟩ := h
                  subst hv; subst hR
                  exact ⟨hInv, fun k t a => a, fun k hk _ => hk,
                    builtinDivide_noAT hb, post_trivial True.intro⟩
              · simp at h
    | members name acc rest =>
      cases rest with
      | nil =>
        simp only [run, Except.ok.injEq, Prod.mk.injEq] at h
        obtain ⟨hv, hR⟩ := h
        subst hv; subst hR
        refine ⟨hInv, fun k t a => a, fun k hk _ => hk, ?_, post_trivial True.intro⟩
        simp only [JobOK] at hJob
        exact NoAT.object acc hJob
      | cons p rest' =>
        obtain ⟨k0, v0⟩ := p
        simp only [run] at h
        split at h
        · simp at h
        · rename_i rv R1 hrec1
          simp only [JobOK] at hJob
          obtain ⟨hInv1, hmono1, hfresh1, hnoat1, _⟩ :=
            ih _ _ _ _ _ hrec1 hInv (by simp [JobOK])
          obtain ⟨hInv2, hmono2, hfresh2, hnoat2, _⟩ :=
            ih _ _ _ _ _ h hInv1 (by
              simp only [JobOK]
              intro p hp
              rcases insertVM_mem hp with hmem | hval
              · exact hJob p hmem
              · rw [hval]
                exact hnoat1)
          exact ⟨hInv2, fun k t hk => hmono2 k t (hmono1 k t hk),
            fun k hk hs => hfresh2 k (hfresh1 k hk hs) hs, hnoat2,
            post_trivial True.intro⟩

/-! ### The top-level resolution loop preserves the invariant -/

theorem resolveEntries_master (tokens : TokenSet) : ∀ entries R,
    (∀ e ∈ entries, lookupTS tokens e.1 = some e.2) →
    ResolvedInv tokens R →
    ∀ out, resolveEntries tokens entries R = .ok out →
    ResolvedInv tokens out
    ∧ (∀ k t, lookupTS R k = some t → lookupTS out k = some t)
    ∧ (∀ e ∈ entries, (lookupTS out e.1).isSome = true) := by
  intro entries
  induction entries with
  | nil =>
    intro R hent hInv out hout
    simp only [resolveEntries, Except.ok.injEq] at hout
    subst hout
    exact ⟨hInv, fun k t a => a, by simp⟩
  | cons e rest ihe =>
    obtain ⟨key, token⟩ := e
    intro R hent hInv out hout
    simp only [resolveEntries] at hout
    split at hout
    · rename_i hck
      obtain ⟨h1, h2, h3⟩ :=
        ihe R (fun e he => hent e (List.mem_cons_of_mem _ he)) hInv out hout
      refine ⟨h1, h2, ?_⟩
      intro e he
      rcases List.mem_cons.mp he with he1 | he1
      · simp only [containsKeyTS] at hck
        cases hl : lookupTS R key with
        | none => rw [hl] at hck; simp at hck
        | some t =>
          have h4 := h2 key t hl
          rw [he1]
          simp [h4]
      · exact h3 e he1
    · rename_i hck
      split at hout
      · simp at hout
      · simp at hout
      · rename_i val R1 hrun
        have hlkkey : lookupTS tokens key = some token :=
          hent (key, token) (List.mem_cons_self _ _)
        have hRkeynone : lookupTS R key = none := by
          simp only [containsKeyTS] at hck
          cases hl : lookupTS R key with
          | none => rfl
          | some t => rw [hl] at hck; simp at hck
        obtain ⟨hInv1, hmono1, hfresh1, hnoat1, hpost1⟩ :=
          run_master tokens (topFuel tokens) (.value key token.value) R [key]
            val R1 hrun hInv (by simp [JobOK])
        have hR1key : lookupTS R1 key = none := hfresh1 key hRkeynone (by simp)
        have hlook := fun k' =>
          lookupTS_insertTS R1 key ⟨key, val, token.comment⟩ k'
        have hInv2 : ResolvedInv tokens
            (insertTS R1 key ⟨key, val, token.comment⟩) := by
          intro k t hkt
          rw [hlook k] at hkt
          by_cases hk : key = k
          · subst hk
            rw [if_pos rfl] at hkt
            injection hkt with hkt'
            subst hkt'
            refine ⟨by rw [hlkkey]; rfl, rfl, by rw [hlkkey]; rfl, hnoat1, ?_, ?_⟩
            · intro b hb
              rw [hlkkey] at hb
              simp only [Option.map_some'] at hb
              injection hb with hb'
              obtain ⟨tb, htb, htbv⟩ := post_value_elim_alias hpost1 hb'
              by_cases hbt : key = b
              · rw [← hbt, hR1key] at htb
                simp at htb
              · exact ⟨tb, by rw [hlook b, if_neg hbt]; exact htb, htbv⟩
            · intro p hp
              rw [hlkkey] at hp
              simp only [Option.map_some'] at hp
              injection hp with hp'
              exact post_value_elim_reference hpost1 hp'
          · rw [if_neg hk] at hkt
            obtain ⟨q1, q2, q3, q4, q5, q6⟩ := hInv1 k t hkt
            refine ⟨q1, q2, q3, q4, ?_, q6⟩
            intro b hb
            obtain ⟨tb, htb, htbv⟩ := q5 b hb
            by_cases hbt : key = b
            · rw [← hbt, hR1key] at htb
              simp at htb
            · exact ⟨tb, by rw [hlook b, if_neg hbt]; exact htb, htbv⟩
        obtain ⟨h1, h2, h3⟩ :=
          ihe _ (fun e he => hent e (List.mem_cons_of_mem _ he)) hInv2 out hout
        refine ⟨h1, ?_, ?_⟩
        · intro k t hkt
          have hne : ¬ key = k := by
            intro he
            rw [← he, hRkeynone] at hkt
            simp at hkt
          exact h2 k t (by rw [hlook k, if_neg hne]; exact hmono1 k t hkt)
        · intro e he
          rcases List.mem_cons.mp he with he1 | he1
          · have hsome : lookupTS (insertTS R1 key ⟨key, val, token.comment⟩)
                key = some ⟨key, val, token.comment⟩ := by
              rw [hlook key, if_pos rfl]
            have h4 := h2 key ⟨key, val, token.comment⟩ hsome
            rw [he1]
            simp [h4]
          · exact h3 e he1

/-- Invariant and completeness of a whole successful `resolve_tokens` run. -/
theorem resolve_tokens_master {tokens out : TokenSet} (hnd : keysNodup tokens)
    (h : resolve_tokens tokens = .ok out) :
    ResolvedInv tokens out
    ∧ (∀ e ∈ tokens, (lookupTS out e.1).isSome = true) := by
  have hent : ∀ e ∈ tokens, lookupTS tokens e.1 = some e.2 := by
    intro e he
    obtain ⟨k, t⟩ := e
    exact mem_lookupTS_of_nodup hnd he
  have hInv0 : ResolvedInv tokens [] := by
    intro k t hkt
    simp [lookupTS] at hkt
  obtain ⟨h1, _, h3⟩ := resolveEntries_master tokens tokens [] hent hInv0 out h
  exact ⟨h1, h3⟩

/-! ### C2 — output keys and fully-resolved values -/

/-- C2: whenever `resolve_tokens` succeeds on a well-formed source set, the
output has exactly the source's keys (each source path present, no others),
and every output value — members of nested `Object`s included — is free of
`Alias` and `Transform` variants. -/
theorem c2_resolved_keys_and_values (tokens out : TokenSet)
    (hnd : keysNodup tokens) (h : resolve_tokens tokens = .ok out) :
    (∀ k, containsKeyTS out k = containsKeyTS tokens k)
    ∧ (∀ k t, lookupTS out k = some t → NoAT t.value) := by
  obtain ⟨h1, h3⟩ := resolve_tokens_master hnd h
  refine ⟨?_, fun k t hkt => (h1 k t hkt).2.2.2.1⟩
  intro k
  cases hb : containsKeyTS tokens k
  · cases hl : lookupTS out k with
    | none => simp [containsKeyTS, hl]
    | some t =>
      have hs := (h1 k t hl).1
      simp only [containsKeyTS] at hb
      rw [hb] at hs
      simp at hs
  · simp only [containsKeyTS] at hb ⊢
    cases hlt : lookupTS tokens k with
    | none => rw [hlt] at hb; simp at hb
    | some tk => exact h3 (k, tk) (lookupTS_mem hlt)

def aliasWitSet : TokenSet :=
  [("b0", ⟨"b0", .string "v", none⟩), ("a0", ⟨"a0", .alias "b0", none⟩)]

def aliasWitOut : TokenSet :=
  [("b0", ⟨"b0", .string "v", none⟩), ("a0", ⟨"a0", .string "v", none⟩)]

/-- Witness for C2 at a concrete two-token set. -/
theorem c2_witness :
    keysNodup aliasWitSet
    ∧ containsKeyTS aliasWitOut "a0" = containsKeyTS aliasWitSet "a0" :=
  ⟨by decide,
   (c2_resolved_keys_and_values aliasWitSet aliasWitOut (by decide) rfl).1 "a0"⟩

/-! ### C3 — alias transparency -/

/-- C3: whenever resolution succeeds, a token `a` whose source value is
`Alias b` resolves to exactly the value its target `b` is resolved to
(whether `b` was resolved as a top-level entry or through the memoized
cache). -/
theorem c3_alias_transparency (tokens out : TokenSet) (a b : String)
    (ta : Token) (hnd : keysNodup tokens) (h : resolve_tokens tokens = .ok out)
    (ha : lookupTS tokens a = some ta) (hv : ta.value = .alias b) :
    ∃ ra rb, lookupTS out a = some ra ∧ lookupTS out b = some rb
      ∧ ra.value = rb.value := by
  obtain ⟨h1, h3⟩ := resolve_tokens_master hnd h
  have h4 := h3 (a, ta) (lookupTS_mem ha)
  cases hla : lookupTS out a with
  | none => rw [hla] at h4; simp at h4
  | some ra =>
    obtain ⟨_, _, _, _, q5, _⟩ := h1 a ra hla
    obtain ⟨rb, hrb, hrbv⟩ := q5 b (by rw [ha]; simp [hv])
    exact ⟨ra, rb, rfl, hrb, hrbv.symm⟩

/-- Witness for C3 at a concrete aliasing set. -/
theorem c3_witness :
    keysNodup aliasWitSet
    ∧ ∃ ra rb, lookupTS aliasWitOut "a0" = some ra
        ∧ lookupTS aliasWitOut "b0" = some rb ∧ ra.value = rb.value :=
  ⟨by decide,
   c3_alias_transparency aliasWitSet aliasWitOut "a0" "b0"
     ⟨"a0", .alias "b0", none⟩ (by decide) rfl rfl rfl⟩

/-! ### C4 — reference indirection -/

/-- C4: whenever resolution succeeds, a token `r` whose source value is
`Reference t` (with `t` present in the source set) resolves to the `String`
indirection `var(--...)` computed from `t`'s path alone — never to `t`'s
value. -/
theorem c4_reference_indirection (tokens out : TokenSet) (r t : String)
    (tr : Token) (hnd : keysNodup tokens) (h : resolve_tokens tokens = .ok out)
    (hr : lookupTS tokens r = some tr) (hv : tr.value = .reference t)
    (ht : containsKeyTS tokens t = true) :
    (∃ rr, lookupTS out r = some rr
      ∧ rr.value = .string (referenceString t))
    ∧ (∀ (fuel : Nat) (name : String) (R : TokenSet) (stack : List String),
        run (fuel + 1) (.value name (.reference t)) tokens R stack
          = .ok (.string (referenceString t), R)) := by
  constructor
  · obtain ⟨h1, h3⟩ := resolve_tokens_master hnd h
    have h4 := h3 (r, tr) (lookupTS_mem hr)
    cases hlr : lookupTS out r with
    | none => rw [hlr] at h4; simp at h4
    | some rr =>
      obtain ⟨_, _, _, _, _, q6⟩ := h1 r rr hlr
      obtain ⟨_, hval⟩ := q6 t (by rw [hr]; simp [hv])
      exact ⟨rr, rfl, hval⟩
  · intro fuel name R stack
    show (if containsKeyTS tokens t then
        Except.ok (TokenValue.string (referenceString t), R)
      else Except.error (ResolveError.tokenNotFound
        (t ++ " (referenced by " ++ name ++ ")"))) = _
    rw [if_pos ht]

def refWitSet : TokenSet :=
  [("base", ⟨"base", .color "#112233", none⟩),
   ("ref", ⟨"ref", .reference "base", none⟩)]

def refWitOut : TokenSet :=
  [("base", ⟨"base", .color "#112233", none⟩),
   ("ref", ⟨"ref", .string "var(--base)", none⟩)]

/-- Witness for C4: the reference resolves to `var(--base)`, not to the
target's color value `#112233`. -/
theorem c4_witness :
    keysNodup refWitSet
    ∧ ∃ rr, lookupTS refWitOut "ref" = some rr
        ∧ rr.value = .string (referenceString "base") :=
  ⟨by decide,
   (c4_reference_indirection refWitSet refWitOut "ref" "base"
     ⟨"ref", .reference "base", none⟩ (by decide) rfl rfl rfl rfl).1⟩

/-! ### C5 — missing targets make resolution fail (amended general part) -/

/-- C5, amended: a source set containing a token whose value aliases or
references an absent path can never resolve successfully; the error is
`TokenNotFound` naming both the missing path and the referrer when the
dangling token is the first failure the resolver meets — in particular
`{a: alias(b)}` fails with `TokenNotFound` whose message mentions both
`"b"` and `"a"`. -/
theorem c5_missing_target (tokens : TokenSet) (k p : String) (tk : Token)
    (hnd : keysNodup tokens) (hk : lookupTS tokens k = some tk)
    (hv : tk.value = .alias p ∨ tk.value = .reference p)
    (hp : lookupTS tokens p = none) :
    (∀ out, resolve_tokens tokens ≠ .ok out)
    ∧ resolve_tokens missingTargetSet =
        .error (.tokenNotFound "b (referenced by a)")
    ∧ ("b".data <:+:
        (ResolveError.tokenNotFound "b (referenced by a)").message.data)
    ∧ ("a".data <:+:
        (ResolveError.tokenNotFound "b (referenced by a)").message.data) := by
  refine ⟨?_, rfl, by decide, by decide⟩
  intro out hout
  obtain ⟨h1, h3⟩ := resolve_tokens_master hnd hout
  have h4 := h3 (k, tk) (lookupTS_mem hk)
  cases hlk : lookupTS out k with
  | none => rw [hlk] at h4; simp at h4
  | some rk =>
    obtain ⟨_, _, _, _, q5, q6⟩ := h1 k rk hlk
    rcases hv with hva | hvr
    · obtain ⟨tb, htb, _⟩ := q5 p (by rw [hk]; simp [hva])
      have hs := (h1 p tb htb).1
      rw [hp] at hs
      simp at hs
    · obtain ⟨hsome, _⟩ := q6 p (by rw [hk]; simp [hvr])
      rw [hp] at hsome
      simp at hsome

/-- Witness for C5 at the one-token dangling set. -/
theorem c5_witness :
    resolve_tokens missingTargetSet =
      .error (.tokenNotFound "b (referenced by a)")
    ∧ ("b".data <:+:
        (ResolveError.tokenNotFound "b (referenced by a)").message.data)
    ∧ ("a".data <:+:
        (ResolveError.tokenNotFound "b (referenced by a)").message.data) :=
  (c5_missing_target missingTargetSet "a" "b" ⟨"a", .alias "b", none⟩
    (by decide) rfl (Or.inl rfl) rfl).2

/-! ### C8 (amended) — comments are preserved, never inherited -/

/-- C8, amended: whenever resolution succeeds, every output token carries
exactly its own source token's comment; an uncommented alias stays
uncommented (no inheritance from the target), and a commented alias keeps
its comment. -/
theorem c8_comments_preserved (tokens out : TokenSet) (hnd : keysNodup tokens)
    (h : resolve_tokens tokens = .ok out) :
    ∀ k t, lookupTS out k = some t →
      t.comment = (lookupTS tokens k).bind Token.comment :=
  fun k t hkt => ((resolve_tokens_master hnd h).1 k t hkt).2.2.1

/-- Witness for C8 at the commented-target set. -/
theorem c8_witness :
    (Token.mk "a" (.string "#fff") none).comment =
      (lookupTS commentSet "a").bind Token.comment :=
  c8_comments_preserved commentSet
    [("b", ⟨"b", .string "#fff", some "blue"⟩),
     ("a", ⟨"a", .string "#fff", none⟩)]
    (by decide) rfl "a" ⟨"a", .string "#fff", none⟩ rfl

/-! ### C10 — output token names equal their keys -/

/-- C10: whenever resolution succeeds, every output binding's token has its
`name` field equal to the owning key — the resolver rewrites `name` to the
key (for alias targets, to the target's own path), so a source token whose
`name` disagrees with its key is silently normalized. -/
theorem c10_names_equal_keys (tokens out : TokenSet) (hnd : keysNodup tokens)
    (h : resolve_tokens tokens = .ok out) :
    ∀ k t, lookupTS out k = some t → t.name = k :=
  fun k t hkt => ((resolve_tokens_master hnd h).1 k t hkt).2.1

/-- Witness for C10: `referenceOnlySet`'s token is named `"s"` under key
`"r"`; the resolved token is renamed to `"r"`. -/
theorem c10_witness :
    (Token.mk "r" (.string "var(--r)") none).name = "r" :=
  c10_names_equal_keys referenceOnlySet
    [("r", ⟨"r", .string "var(--r)", none⟩)] (by decide) rfl
    "r" ⟨"r", .string "var(--r)", none⟩ rfl

/-! ### C7 — idempotence machinery -/

theorem lookupTS_eq_none_of_not_mem {m : TokenSet} {k : String}
    (h : k ∉ m.map Prod.fst) : lookupTS m k = none := by
  induction m with
  | nil => rfl
  | cons hd rest ih =>
    obtain ⟨hk, ht⟩ := hd
    simp at h
    have hne : hk ≠ k := fun he => h.1 he.symm
    simp [lookupTS, hne]
    exact ih (by simpa using h.2)

theorem insertTS_append {m : TokenSet} {k : String} (t : Token)
    (h : k ∉ m.map Prod.fst) : insertTS m k t = m ++ [(k, t)] := by
  induction m with
  | nil => simp [insertTS]
  | cons hd rest ih =>
    obtain ⟨hk, ht⟩ := hd
    simp at h
    have hne : hk ≠ k := fun he => h.1 he.symm
    simp [insertTS, hne]
    exact ih (by simpa using h.2)

/-- A value that is already fully terminal: no `Alias`, `Reference` or
`Transform` at any depth, with unique member keys at every `Object` level
(the IndexMap invariant). -/
inductive PlainValue : TokenValue → Prop where
  | string (s : String) : PlainValue (.string s)
  | number (n : Rat) : PlainValue (.number n)
  | boolv (b : Bool) : PlainValue (.bool b)
  | color (s : String) : PlainValue (.color s)
  | dimension (v : Rat) (u : String) : PlainValue (.dimension v u)
  | nullv : PlainValue .null
  | object (ms : List (String × TokenValue))
      (hnd : (ms.map Prod.fst).Nodup)
      (h : ∀ p ∈ ms, PlainValue p.2) : PlainValue (.object ms)

theorem run_plain_aux (tokens : TokenSet) : ∀ fuel,
    (∀ val name R stack, PlainValue val → valueFuel val < fuel →
      run fuel (.value name val) tokens R stack = .ok (val, R))
    ∧ (∀ ms acc name R stack,
        (∀ p ∈ ms, PlainValue p.2) →
        (acc.map Prod.fst ++ ms.map Prod.fst).Nodup →
        memFuel ms < fuel →
        run fuel (.members name acc ms) tokens R stack =
          .ok (.object (acc ++ ms), R)) := by
  intro fuel
  induction fuel with
  | zero =>
    constructor
    · intro val _ _ _ _ hfuel
      omega
    · intro ms _ _ _ _ _ _ hfuel
      omega
  | succ f ih =>
    constructor
    · intro val name R stack hpl hfuel
      cases hpl with
      | string s => rfl
      | number n => rfl
      | boolv b => rfl
      | color s => rfl
      | dimension v u => rfl
      | nullv => rfl
      | object ms hndm hm =>
        have hstep : run (Nat.succ f) (.value name (.object ms)) tokens R stack
            = run f (.members name [] ms) tokens R stack := rfl
        rw [hstep]
        have hb : memFuel ms < f := by
          simp only [valueFuel] at hfuel
          omega
        have := ih.2 ms [] name R stack hm (by simpa using hndm) hb
        simpa using this
    · intro ms acc name R stack hpl hnd hfuel
      cases ms with
      | nil =>
        have hstep : run (Nat.succ f) (.members name acc []) tokens R stack
            = .ok (.object acc, R) := rfl
        rw [hstep]
        simp
      | cons p rest =>
        obtain ⟨k0, v0⟩ := p
        have hv0 : PlainValue v0 := hpl (k0, v0) (List.mem_cons_self _ _)
        have hfv : valueFuel v0 < f := by
          simp only [memFuel] at hfuel
          omega
        have hfr : memFuel rest < f := by
          simp only [memFuel] at hfuel
          omega
        have hrun1 : run f (.value name v0) tokens R stack = .ok (v0, R) :=
          ih.1 v0 name R stack hv0 hfv
        have hstep : run (Nat.succ f) (.members name acc ((k0, v0) :: rest))
              tokens R stack
            = match run f (.value name v0) tokens R stack with
              | .error e => .error e
              | .ok (rv, resolved') =>
                run f (.members name (insertVM acc k0 rv) rest)
                  tokens resolved' stack := rfl
        rw [hstep, hrun1]
        dsimp only
        have hk0 : k0 ∉ acc.map Prod.fst := by
          rw [List.nodup_append] at hnd
          intro hmem
          exact hnd.2.2 hmem (by simp)
        have hins : insertVM acc k0 v0 = acc ++ [(k0, v0)] :=
          insertVM_append _ hk0
        have hnd' : ((acc ++ [(k0, v0)]).map Prod.fst ++
            rest.map Prod.fst).Nodup := by
          simp only [List.map_append, List.map_cons, List.map_nil] at hnd ⊢
          simpa [List.append_assoc] using hnd
        have := ih.2 rest (acc ++ [(k0, v0)]) name R stack
          (fun p hp => hpl p (List.mem_cons_of_mem _ hp)) hnd' hfr
        rw [hins]
        simpa [List.append_assoc] using this

theorem valueFuel_lt_tokensFuel : ∀ (m : TokenSet) (e : String × Token),
    e ∈ m → valueFuel e.2.value < tokensFuel m := by
  intro m
  induction m with
  | nil =>
    intro e he
    simp at he
  | cons hd rest ih =>
    obtain ⟨k, t⟩ := hd
    intro e he
    rcases List.mem_cons.mp he with he1 | he1
    · subst he1
      simp only [tokensFuel]
      omega
    · have := ih e he1
      simp only [tokensFuel]
      omega

theorem resolveEntries_plain (tokens : TokenSet) : ∀ entries R,
    (∀ e ∈ entries, e.2.name = e.1 ∧ PlainValue e.2.value ∧
      valueFuel e.2.value < topFuel tokens) →
    (R.map Prod.fst ++ entries.map Prod.fst).Nodup →
    resolveEntries tokens entries R = .ok (R ++ entries) := by
  intro entries
  induction entries with
  | nil =>
    intro R _ _
    simp [resolveEntries]
  | cons e rest ihe =>
    obtain ⟨key, token⟩ := e
    intro R hent hnd
    have hkeyR : key ∉ R.map Prod.fst := by
      rw [List.nodup_append] at hnd
      intro hmem
      exact hnd.2.2 hmem (by simp)
    have hckR : containsKeyTS R key = false := by
      simp [containsKeyTS, lookupTS_eq_none_of_not_mem hkeyR]
    obtain ⟨hname, hplain, hbound⟩ := hent (key, token) (List.mem_cons_self _ _)
    replace hname : token.name = key := hname
    replace hplain : PlainValue token.value := hplain
    replace hbound : valueFuel token.value < topFuel tokens := hbound
    have hrun : run (topFuel tokens) (.value key token.value) tokens R [key]
        = .ok (token.value, R) :=
      (run_plain_aux tokens (topFuel tokens)).1 token.value key R [key]
        hplain hbound
    have hstep : resolveEntries tokens ((key, token) :: rest) R
        = if containsKeyTS R key then resolveEntries tokens rest R
          else match run (topFuel tokens) (.value key token.value)
              tokens R [key] with
            | .error (.cycleDetected s) =>
              .error (.cycleDetected (key ++ " -> " ++ s))
            | .error e => .error e
            | .ok (val, resolved') =>
              resolveEntries tokens rest
                (insertTS resolved' key ⟨key, val, token.comment⟩) := rfl
    rw [hstep, if_neg (show ¬ (containsKeyTS R key = true) by simp [hckR]),
      hrun]
    dsimp only
    have htok : (⟨key, token.value, token.comment⟩ : Token) = token := by
      rw [← hname]
    rw [htok, insertTS_append token hkeyR]
    have hnd' : ((R ++ [(key, token)]).map Prod.fst ++
        rest.map Prod.fst).Nodup := by
      simp only [List.map_append, List.map_cons, List.map_nil] at hnd ⊢
      simpa [List.append_assoc] using hnd
    have := ihe (R ++ [(key, token)])
      (fun e he => hent e (List.mem_cons_of_mem _ he)) hnd'
    rw [this]
    simp

/-- C7, amended: resolving a well-formed source set in which every value is
already terminal (no `Alias`, `Transform` — and also no `Reference`, since a
`Reference` is rewritten to its indirection string) and every token's `name`
equals its key returns the set unchanged: same keys, same order, same
tokens. -/
theorem c7_idempotence (tokens : TokenSet) (hnd : keysNodup tokens)
    (hpl : ∀ e ∈ tokens, e.2.name = e.1 ∧ PlainValue e.2.value) :
    resolve_tokens tokens = .ok tokens := by
  have hcomb : ∀ e ∈ tokens, e.2.name = e.1 ∧ PlainValue e.2.value ∧
      valueFuel e.2.value < topFuel tokens := by
    intro e he
    obtain ⟨h1, h2⟩ := hpl e he
    exact ⟨h1, h2, valueFuel_lt_tokensFuel tokens e he⟩
  have := resolveEntries_plain tokens tokens [] hcomb (by simpa using hnd)
  simpa [resolve_tokens] using this

def plainWitSet : TokenSet := [("k", ⟨"k", .string "v", none⟩)]

/-- Witness for C7 at a one-token terminal set. -/
theorem c7_witness :
    keysNodup plainWitSet ∧ resolve_tokens plainWitSet = .ok plainWitSet :=
  ⟨by decide,
   c7_idempotence plainWitSet (by decide) (by
     intro e he
     simp only [plainWitSet, List.mem_singleton] at he
     subst he
     exact ⟨rfl, PlainValue.string "v"⟩)⟩

/-! ### `src/_src/design_token/css_var.rs` — CSS custom-property keys

Strings are handled as their character lists.  `Char.isAlphanum`,
`Char.isUpper` and `Char.toLower` coincide with Rust's
`is_ascii_alphanumeric`, `is_ascii_uppercase` and `to_ascii_lowercase` (all
ASCII-only).  Lean's `Char.isWhitespace` covers space/tab/CR/LF where Rust's
`char::is_whitespace` is full Unicode; no claim below involves non-ASCII
whitespace. -/

/-- `CssKeyOptions`; `namespaceOpt` models the Rust field named after the
namespace marker. -/
structure CssKeyOptions where
  namespaceOpt : Option String
  separator : Char
  lowercase : Bool

/-- `CssKeyOptions::default()`. -/
def defaultCssKeyOptions : CssKeyOptions := ⟨none, '-', true⟩

/-- One iteration of `normalize_token`'s character loop; the state is
`(out, prev_was_sep, prev_was_lower_or_digit)`. -/
def normStep (separator : Char) (lowercase : Bool)
    (st : List Char × Bool × Bool) (ch : Char) : List Char × Bool × Bool :=
  let out := st.1
  let prevWasSep := st.2.1
  let prevWasLowerOrDigit := st.2.2
  if ch.isAlphanum then
    if ch.isUpper then
      let out1 :=
        if prevWasLowerOrDigit && !prevWasSep then
          if out.getLast? = some separator then out else out ++ [separator]
        else out
      (out1 ++ [if lowercase then ch.toLower else ch], false,
        ch.isAlpha || ch.isDigit)
    else
      (out ++ [if lowercase then ch.toLower else ch], false,
        ch.isAlpha || ch.isDigit)
  else
    ((if out.getLast? = some separator then out else out ++ [separator]),
      true, false)

/-- Rust `str::trim_matches(separator)`: strip the separator from both
ends. -/
def trimMatchesChar (separator : Char) (l : List Char) : List Char :=
  ((l.dropWhile (fun c => c = separator)).reverse.dropWhile
    (fun c => c = separator)).reverse

/-- `normalize_token` from `css_var.rs`. -/
def normalize_token (s : List Char) (separator : Char) (lowercase : Bool) :
    List Char :=
  trimMatchesChar separator
    (s.foldl (normStep separator lowercase) ([], false, false)).1

/-- The part-splitting loop of `normalize_path`: split on `.`, `/` and
whitespace, discarding empty runs. -/
def splitParts : List Char → List Char → List (List Char)
  | [], current => if current.isEmpty then [] else [current]
  | ch :: rest, current =>
    if ch = '.' ∨ ch = '/' ∨ ch.isWhitespace then
      if current.isEmpty then splitParts rest []
      else current :: splitParts rest []
    else splitParts rest (current ++ [ch])

/-- One iteration of `normalize_path`'s joining loop: normalize the part,
skip it when empty, and separate emitted parts (`i > 0 && !out.is_empty()`);
the state is `(out, i)`. -/
def joinStep (separator : Char) (lowercase : Bool)
    (st : List Char × Nat) (part : List Char) : List Char × Nat :=
  let tok := normalize_token part separator lowercase
  if tok.isEmpty then (st.1, st.2 + 1)
  else if 0 < st.2 ∧ !st.1.isEmpty then
    (st.1 ++ [separator] ++ tok, st.2 + 1)
  else (st.1 ++ tok, st.2 + 1)

/-- The joining loop of `normalize_path`. -/
def joinNormalized (separator : Char) (lowercase : Bool)
    (parts : List (List Char)) : List Char :=
  (parts.foldl (joinStep separator lowercase) ([], 0)).1

/-- `normalize_path` from `css_var.rs`. -/
def normalize_path (s : List Char) (separator : Char) (lowercase : Bool) :
    List Char :=
  joinNormalized separator lowercase (splitParts s [])

/-- `make_css_custom_property_key` from `css_var.rs`, on character lists:
normalize the optional namespace, take the body as
`path.trim_start().strip_prefix("--").unwrap_or(path.trim())`, normalize it,
join, and prepend the `--` marker. -/
def makeCssKeyChars (path : List Char) (opts : CssKeyOptions) : List Char :=
  let out : List Char :=
    match opts.namespaceOpt with
    | some p =>
      let np := normalize_token p.data opts.separator opts.lowercase
      if np.isEmpty then [] else np
    | none => []
  let ts := path.dropWhile Char.isWhitespace
  let body : List Char :=
    match ts with
    | '-' :: '-' :: rest => rest
    | _ =>
      ((path.dropWhile Char.isWhitespace).reverse.dropWhile
        Char.isWhitespace).reverse
  let normBody := normalize_path body opts.separator opts.lowercase
  let out2 :=
    if normBody.isEmpty then out
    else if out.isEmpty then normBody
    else out ++ [opts.separator] ++ normBody
  '-' :: '-' :: out2

/-- `make_css_custom_property_key` on Lean strings. -/
def make_css_custom_property_key (path : String) (opts : CssKeyOptions) :
    String :=
  String.mk (makeCssKeyChars path.data opts)

/-! ### Character-class facts -/

theorem char_toNat_ofNat {m : Nat} (h : m < 55296) :
    (Char.ofNat m).toNat = m := by
  have hv : m.isValidChar := Or.inl h
  simp [Char.ofNat, hv, Char.ofNatAux, Char.toNat]
  rfl

theorem char_isUpper_iff {c : Char} :
    c.isUpper = true ↔ 65 ≤ c.toNat ∧ c.toNat ≤ 90 := by
  simp only [Char.isUpper, Bool.and_eq_true, decide_eq_true_eq, ge_iff_le,
    UInt32.le_def, BitVec.le_def]
  exact Iff.rfl

theorem char_isLower_iff {c : Char} :
    c.isLower = true ↔ 97 ≤ c.toNat ∧ c.toNat ≤ 122 := by
  simp only [Char.isLower, Bool.and_eq_true, decide_eq_true_eq, ge_iff_le,
    UInt32.le_def, BitVec.le_def]
  exact Iff.rfl

theorem char_isDigit_iff {c : Char} :
    c.isDigit = true ↔ 48 ≤ c.toNat ∧ c.toNat ≤ 57 := by
  simp only [Char.isDigit, Bool.and_eq_true, decide_eq_true_eq, ge_iff_le,
    UInt32.le_def, BitVec.le_def]
  exact Iff.rfl

/-- ASCII lowercase letters and digits — the letter shapes that survive
default-option normalization. -/
def lowerOrDigit (c : Char) : Bool := c.isLower || c.isDigit

theorem toLower_isLower {c : Char} (h : c.isUpper = true) :
    (c.toLower).isLower = true := by
  obtain ⟨h1, h2⟩ := char_isUpper_iff.mp h
  simp only [Char.toLower, if_pos (And.intro h1 h2)]
  have hval : (Char.ofNat (c.toNat + 32)).toNat = c.toNat + 32 :=
    char_toNat_ofNat (by omega)
  rw [char_isLower_iff, hval]
  omega

theorem toLower_lowerOrDigit {c : Char} (h : c.isUpper = true) :
    lowerOrDigit (c.toLower) = true := by
  simp [lowerOrDigit, toLower_isLower h]

theorem toLower_eq_self {c : Char} (h : lowerOrDigit c = true) :
    c.toLower = c := by
  simp only [lowerOrDigit, Bool.or_eq_true] at h
  have hn : ¬ (c.toNat ≥ 65 ∧ c.toNat ≤ 90) := by
    rcases h with h | h
    · obtain ⟨h1, h2⟩ := char_isLower_iff.mp h
      omega
    · obtain ⟨h1, h2⟩ := char_isDigit_iff.mp h
      omega
  simp [Char.toLower, hn]

theorem alnum_not_upper {c : Char} (h1 : c.isAlphanum = true)
    (h2 : c.isUpper = false) : lowerOrDigit c = true := by
  simp only [Char.isAlphanum, Char.isAlpha, Bool.or_eq_true] at h1
  rcases h1 with (h | h) | h
  · rw [h2] at h; exact absurd h (by simp)
  · simp [lowerOrDigit, h]
  · simp [lowerOrDigit, h]

theorem lowerOrDigit_isAlphanum {c : Char} (h : lowerOrDigit c = true) :
    c.isAlphanum = true := by
  simp only [lowerOrDigit, Bool.or_eq_true] at h
  rcases h with h | h <;> simp [Char.isAlphanum, Char.isAlpha, h]

theorem lowerOrDigit_not_upper {c : Char} (h : lowerOrDigit c = true) :
    c.isUpper = false := by
  simp only [lowerOrDigit, Bool.or_eq_true] at h
  cases hu : c.isUpper
  · rfl
  · obtain ⟨u1, u2⟩ := char_isUpper_iff.mp hu
    rcases h with h | h
    · obtain ⟨h1, h2⟩ := char_isLower_iff.mp h
      omega
    · obtain ⟨h1, h2⟩ := char_isDigit_iff.mp h
      omega

theorem lowerOrDigit_not_ws {c : Char} (h : lowerOrDigit c = true) :
    c.isWhitespace = false := by
  cases hw : c.isWhitespace
  · rfl
  · simp only [Char.isWhitespace, Bool.or_eq_true, decide_eq_true_eq] at hw
    rcases hw with ((h1 | h1) | h1) | h1 <;>
      (subst h1; exact absurd h (by decide))

/-! ### The normal form of default-option normalized paths -/

/-- Directional scan: the characters are lowercase alphanumerics or the
separator `-`, never two separators in a row; `last?` is the previous
character. -/
def nfChars : Option Char → List Char → Bool
  | _, [] => true
  | last?, c :: rest =>
    if lowerOrDigit c then nfChars (some c) rest
    else if c = '-' then (last? != some '-') && nfChars (some '-') rest
    else false

/-- Normal form of a default-option normalized path: well-scanned and not
starting or ending with the separator. -/
def NormalForm (l : List Char) : Prop :=
  nfChars none l = true ∧ l.head? ≠ some '-' ∧ l.getLast? ≠ some '-'

/-- The continuation character after scanning `xs` from `last?`. -/
def lastO (last? : Option Char) (xs : List Char) : Option Char :=
  match xs.getLast? with
  | some c => some c
  | none => last?

theorem lastO_nil (last? : Option Char) : lastO last? [] = last? := rfl

theorem lastO_cons (last? : Option Char) (c : Char) (xs : List Char) :
    lastO last? (c :: xs) = lastO (some c) xs := by
  cases xs with
  | nil => rfl
  | cons d xs' =>
    cases hg : (d :: xs').getLast? with
    | none => simp at hg
    | some e => simp [lastO, List.getLast?_cons_cons, hg]

theorem nfChars_append (ys : List Char) : ∀ (xs : List Char) (last? : Option Char),
    nfChars last? (xs ++ ys) = (nfChars last? xs && nfChars (lastO last? xs) ys) := by
  intro xs
  induction xs with
  | nil =>
    intro last?
    simp [nfChars, lastO_nil]
  | cons c xs' ih =>
    intro last?
    rw [List.cons_append]
    by_cases h1 : lowerOrDigit c = true
    · have e1 : ∀ l, nfChars last? (c :: l) = nfChars (some c) l := by
        intro l
        simp [nfChars, h1]
      simp only [e1]
      rw [ih (some c), lastO_cons]
    · by_cases h2 : c = '-'
      · subst h2
        have hd : lowerOrDigit '-' = false := by decide
        have e1 : ∀ (w : Option Char) l, nfChars w ('-' :: l) =
            ((w != some '-') && nfChars (some '-') l) := by
          intro w l
          simp [nfChars, hd]
        simp only [e1]
        rw [ih (some '-'), lastO_cons, Bool.and_assoc]
      · have e1 : ∀ l, nfChars last? (c :: l) = false := by
          intro l
          simp [nfChars, h1, h2]
        simp only [e1]
        simp

theorem nfChars_lod_cons {c : Char} (h : lowerOrDigit c = true)
    (w : Option Char) (l : List Char) :
    nfChars w (c :: l) = nfChars (some c) l := by
  simp [nfChars, h]

theorem nfChars_dash_cons (w : Option Char) (l : List Char) :
    nfChars w ('-' :: l) = ((w != some '-') && nfChars (some '-') l) := by
  have hd : lowerOrDigit '-' = false := by decide
  simp [nfChars, hd]

theorem nfChars_bad_cons {c : Char} (h1 : lowerOrDigit c = false)
    (h2 : c ≠ '-') (w : Option Char) (l : List Char) :
    nfChars w (c :: l) = false := by
  simp [nfChars, h1, h2]

theorem nfChars_single (w : Option Char) (c : Char) :
    nfChars w [c] = (if lowerOrDigit c then true
      else if c = '-' then (w != some '-') else false) := by
  cases hlod : lowerOrDigit c
  · by_cases h2 : c = '-'
    · subst h2
      rw [nfChars_dash_cons]
      simp [hlod, nfChars]
    · rw [nfChars_bad_cons hlod h2]
      simp [hlod, h2]
  · rw [nfChars_lod_cons hlod]
    simp [hlod, nfChars]

theorem nf_append_char {out : List Char} {c : Char}
    (h : nfChars none out = true)
    (hc : lowerOrDigit c = true ∨ (c = '-' ∧ out.getLast? ≠ some '-')) :
    nfChars none (out ++ [c]) = true := by
  rw [nfChars_append [c] out none, h, Bool.true_and, nfChars_single]
  rcases hc with hc | ⟨hc1, hc2⟩
  · simp [hc]
  · subst hc1
    have hd : lowerOrDigit '-' = false := by decide
    rw [if_neg (by simp [hd]), if_pos rfl, bne_iff_ne]
    intro he
    unfold lastO at he
    split at he
    · rename_i heq
      rw [heq] at hc2
      exact hc2 he
    · exact (by simp at he)

theorem nfChars_weaken {last? : Option Char} {l : List Char}
    (h : nfChars last? l = true) : nfChars none l = true := by
  cases l with
  | nil => rfl
  | cons c rest =>
    cases hlod : lowerOrDigit c
    · by_cases h2 : c = '-'
      · subst h2
        rw [nfChars_dash_cons] at h ⊢
        rw [Bool.and_eq_true] at h
        rw [show ((none : Option Char) != some '-') = true from by decide,
          Bool.true_and]
        exact h.2
      · rw [nfChars_bad_cons hlod h2] at h
        exact absurd h (by simp)
    · rw [nfChars_lod_cons hlod] at h ⊢
      exact h

theorem nfChars_strengthen {l : List Char} (last? : Option Char)
    (hh : l.head? ≠ some '-') (h : nfChars none l = true) :
    nfChars last? l = true := by
  cases l with
  | nil => rfl
  | cons c rest =>
    cases hlod : lowerOrDigit c
    · by_cases h2 : c = '-'
      · subst h2
        simp at hh
      · rw [nfChars_bad_cons hlod h2] at h
        exact absurd h (by simp)
    · rw [nfChars_lod_cons hlod] at h ⊢
      exact h

theorem head?_dropWhile_ne (a : Char) : ∀ (l : List Char),
    (l.dropWhile (fun c => c = a)).head? ≠ some a := by
  intro l
  induction l with
  | nil => simp
  | cons c rest ih =>
    rw [List.dropWhile_cons]
    by_cases h : c = a
    · rw [if_pos (by simp [h])]
      exact ih
    · rw [if_neg (by simp [h])]
      simp [h]

theorem head?_append_left {l l' : List Char} (h : l ≠ []) :
    (l ++ l').head? = l.head? := by
  cases l with
  | nil => exact absurd rfl h
  | cons c rest => rfl

theorem getLast?_append_right {l l' : List Char} (h : l' ≠ []) :
    (l ++ l').getLast? = l'.getLast? := by
  rw [← List.head?_reverse, List.reverse_append,
    head?_append_left (by simpa using h), List.head?_reverse]

theorem trim_nf {l : List Char} (h : nfChars none l = true) :
    NormalForm (trimMatchesChar '-' l) := by
  have step1 : nfChars none (l.dropWhile (fun c => c = '-')) = true
      ∧ (l.dropWhile (fun c => c = '-')).head? ≠ some '-' := by
    refine ⟨?_, head?_dropWhile_ne '-' l⟩
    cases l with
    | nil => rfl
    | cons c rest =>
      by_cases hc : c = '-'
      · subst hc
        rw [nfChars_dash_cons, Bool.and_eq_true] at h
        rw [List.dropWhile_cons, if_pos (by simp)]
        cases rest with
        | nil => rfl
        | cons d r' =>
          have hdne : d ≠ '-' := by
            intro he
            subst he
            rw [nfChars_dash_cons, Bool.and_eq_true] at h
            have := h.2.1
            simp at this
          rw [List.dropWhile_cons, if_neg (by simp [hdne])]
          exact nfChars_weaken h.2
      · rw [List.dropWhile_cons, if_neg (by simp [hc])]
        exact h
  obtain ⟨hnf1, hhd1⟩ := step1
  have hsuf : ((l.dropWhile (fun c => c = '-')).reverse.dropWhile
      (fun c => c = '-')) <:+ (l.dropWhile (fun c => c = '-')).reverse :=
    List.dropWhile_suffix _
  have hpre : ((l.dropWhile (fun c => c = '-')).reverse.dropWhile
      (fun c => c = '-')).reverse <+: (l.dropWhile (fun c => c = '-')) := by
    have h2 := List.reverse_prefix.mpr hsuf
    simpa using h2
  obtain ⟨t, ht⟩ := hpre
  have htrim : trimMatchesChar '-' l =
      ((l.dropWhile (fun c => c = '-')).reverse.dropWhile
        (fun c => c = '-')).reverse := rfl
  refine ⟨?_, ?_, ?_⟩
  · rw [htrim]
    have h2 := nfChars_append t
      (((l.dropWhile (fun c => c = '-')).reverse.dropWhile
        (fun c => c = '-')).reverse) none
    rw [ht, hnf1] at h2
    exact ((Bool.and_eq_true _ _).mp h2.symm).1
  · rw [htrim]
    cases hc : ((l.dropWhile (fun c => c = '-')).reverse.dropWhile
        (fun c => c = '-')).reverse with
    | nil => simp
    | cons x rest =>
      rw [hc] at ht
      rw [← ht] at hhd1
      simpa using hhd1
  · rw [htrim, List.getLast?_reverse]
    exact head?_dropWhile_ne '-' _

/-! ### `normalize_token` output is in normal form, and fixes it -/

theorem normStep_bad {st : List Char × Bool × Bool} {ch : Char}
    (han : ch.isAlphanum = false) :
    normStep '-' true st ch =
      ((if st.1.getLast? = some '-' then st.1 else st.1 ++ ['-']),
        true, false) := by
  unfold normStep
  simp [han]

theorem normStep_lower {st : List Char × Bool × Bool} {ch : Char}
    (han : ch.isAlphanum = true) (hup : ch.isUpper = false) :
    normStep '-' true st ch =
      (st.1 ++ [ch.toLower], false, ch.isAlpha || ch.isDigit) := by
  unfold normStep
  simp [han, hup]

theorem normStep_upper {st : List Char × Bool × Bool} {ch : Char}
    (hup : ch.isUpper = true) :
    normStep '-' true st ch =
      ((if st.2.2 && !st.2.1 then
          (if st.1.getLast? = some '-' then st.1 else st.1 ++ ['-'])
        else st.1) ++ [ch.toLower], false, ch.isAlpha || ch.isDigit) := by
  have han : ch.isAlphanum = true := by
    simp [Char.isAlphanum, Char.isAlpha, hup]
  unfold normStep
  simp [han, hup]

theorem foldl_normStep_loose : ∀ (l : List Char) (st : List Char × Bool × Bool),
    nfChars none st.1 = true →
    nfChars none ((l.foldl (normStep '-' true) st)).1 = true := by
  intro l
  induction l with
  | nil =>
    intro st h
    exact h
  | cons ch l' ih =>
    intro st h
    rw [List.foldl_cons]
    apply ih
    cases han : ch.isAlphanum
    · rw [normStep_bad han]
      dsimp only
      by_cases hg : st.1.getLast? = some '-'
      · rw [if_pos hg]
        exact h
      · rw [if_neg hg]
        exact nf_append_char h (Or.inr ⟨rfl, hg⟩)
    · cases hup : ch.isUpper
      · rw [normStep_lower han hup]
        dsimp only
        have hlod := alnum_not_upper han hup
        refine nf_append_char h (Or.inl ?_)
        rw [toLower_eq_self hlod]
        exact hlod
      · rw [normStep_upper hup]
        dsimp only
        have h1 : nfChars none (if st.2.2 && !st.2.1 then
            (if st.1.getLast? = some '-' then st.1 else st.1 ++ ['-'])
          else st.1) = true := by
          by_cases hc : (st.2.2 && !st.2.1) = true
          · rw [if_pos hc]
            by_cases hg : st.1.getLast? = some '-'
            · rw [if_pos hg]
              exact h
            · rw [if_neg hg]
              exact nf_append_char h (Or.inr ⟨rfl, hg⟩)
          · rw [if_neg hc]
            exact h
        exact nf_append_char h1 (Or.inl (toLower_lowerOrDigit hup))

theorem foldl_normStep_id : ∀ (l out : List Char) (b1 b2 : Bool),
    nfChars (out.getLast?) l = true →
    ((l.foldl (normStep '-' true) (out, b1, b2))).1 = out ++ l := by
  intro l
  induction l with
  | nil =>
    intro out b1 b2 _
    simp
  | cons c l' ih =>
    intro out b1 b2 h
    rw [List.foldl_cons]
    cases hlod : lowerOrDigit c
    · by_cases h2 : c = '-'
      · subst h2
        rw [nfChars_dash_cons, Bool.and_eq_true, bne_iff_ne] at h
        have han : ('-' : Char).isAlphanum = false := by decide
        rw [normStep_bad han]
        dsimp only
        rw [if_neg h.1]
        have hrec := ih (out ++ ['-']) true false
          (by rw [List.getLast?_concat]; exact h.2)
        rw [hrec, List.append_assoc]
        rfl
      · rw [nfChars_bad_cons hlod h2] at h
        exact absurd h (by simp)
    · rw [nfChars_lod_cons hlod] at h
      have han := lowerOrDigit_isAlphanum hlod
      have hup := lowerOrDigit_not_upper hlod
      rw [normStep_lower han hup]
      dsimp only
      rw [toLower_eq_self hlod]
      have hrec := ih (out ++ [c]) false (c.isAlpha || c.isDigit)
        (by rw [List.getLast?_concat]; exact h)
      rw [hrec, List.append_assoc]
      rfl

theorem normalize_token_nf (s : List Char) :
    NormalForm (normalize_token s '-' true) := by
  unfold normalize_token
  exact trim_nf (foldl_normStep_loose s ([], false, false) rfl)

theorem trim_id {l : List Char} (h : NormalForm l) :
    trimMatchesChar '-' l = l := by
  obtain ⟨_, hh, hl⟩ := h
  unfold trimMatchesChar
  have e1 : l.dropWhile (fun c => c = '-') = l := by
    cases l with
    | nil => rfl
    | cons c rest =>
      simp only [List.head?_cons, ne_eq, Option.some.injEq] at hh
      rw [List.dropWhile_cons, if_neg (by simp [hh])]
  rw [e1]
  have e2 : l.reverse.dropWhile (fun c => c = '-') = l.reverse := by
    cases hr : l.reverse with
    | nil => rfl
    | cons c rest =>
      have hc : l.getLast? = some c := by
        rw [← List.head?_reverse, hr]
        rfl
      rw [List.dropWhile_cons, if_neg ?_]
      simp only [decide_eq_true_eq]
      intro he
      rw [he] at hc
      exact hl hc
  rw [e2, List.reverse_reverse]

theorem normalize_token_id {l : List Char} (h : NormalForm l) :
    normalize_token l '-' true = l := by
  unfold normalize_token
  rw [foldl_normStep_id l [] false false (by simpa using h.1)]
  simpa using trim_id h

/-! ### Joining keeps normal form; `normalize_path` fixes normal forms -/

theorem nf_concat_sep {out tok : List Char} (ho : NormalForm out)
    (htk : NormalForm tok) (hone : out ≠ []) (htne : tok ≠ []) :
    NormalForm (out ++ '-' :: tok) := by
  obtain ⟨ho1, ho2, ho3⟩ := ho
  obtain ⟨ht1, ht2, ht3⟩ := htk
  refine ⟨?_, ?_, ?_⟩
  · rw [nfChars_append ('-' :: tok) out none, ho1, Bool.true_and,
      nfChars_dash_cons, Bool.and_eq_true]
    refine ⟨?_, nfChars_strengthen (some '-') ht2 ht1⟩
    rw [bne_iff_ne]
    unfold lastO
    split
    · rename_i c heq
      intro he
      rw [he] at heq
      exact ho3 heq
    · simp
  · rw [head?_append_left hone]
    exact ho2
  · rw [getLast?_append_right (by simp)]
    cases tok with
    | nil => exact absurd rfl htne
    | cons c r =>
      rw [List.getLast?_cons_cons]
      exact ht3

theorem nf_concat_plain {out tok : List Char} (ho : NormalForm out)
    (htk : NormalForm tok) (htne : tok ≠ []) :
    NormalForm (out ++ tok) := by
  obtain ⟨ho1, ho2, ho3⟩ := ho
  obtain ⟨ht1, ht2, ht3⟩ := htk
  refine ⟨?_, ?_, ?_⟩
  · rw [nfChars_append tok out none, ho1, Bool.true_and]
    exact nfChars_strengthen _ ht2 ht1
  · cases out with
    | nil => simpa using ht2
    | cons c r =>
      rw [head?_append_left (by simp)]
      exact ho2
  · rw [getLast?_append_right htne]
    exact ht3

theorem joinStep_nf {st : List Char × Nat} {part : List Char}
    (h : NormalForm st.1) : NormalForm (joinStep '-' true st part).1 := by
  unfold joinStep
  dsimp only
  have htnf : NormalForm (normalize_token part '-' true) :=
    normalize_token_nf part
  by_cases he : (normalize_token part '-' true).isEmpty = true
  · rw [if_pos he]
    exact h
  · rw [if_neg he]
    have htne : normalize_token part '-' true ≠ [] := by
      simpa [List.isEmpty_iff] using he
    by_cases hc : 0 < st.2 ∧ (!st.1.isEmpty) = true
    · rw [if_pos hc]
      have hone : st.1 ≠ [] := by
        have := hc.2
        simp [List.isEmpty_iff] at this
        exact this
      have hcat := nf_concat_sep h htnf hone htne
      simpa [List.append_assoc] using hcat
    · rw [if_neg hc]
      exact nf_concat_plain h htnf htne

theorem joinFold_nf : ∀ (parts : List (List Char)) (st : List Char × Nat),
    NormalForm st.1 →
    NormalForm ((parts.foldl (joinStep '-' true) st)).1 := by
  intro parts
  induction parts with
  | nil =>
    intro st h
    exact h
  | cons part rest ih =>
    intro st h
    rw [List.foldl_cons]
    exact ih _ (joinStep_nf h)

theorem normalForm_nil : NormalForm ([] : List Char) :=
  ⟨rfl, by simp, by simp⟩

theorem normalize_path_nf (s : List Char) :
    NormalForm (normalize_path s '-' true) := by
  unfold normalize_path joinNormalized
  exact joinFold_nf _ _ normalForm_nil

theorem chars_of_nf : ∀ {l : List Char} {last? : Option Char},
    nfChars last? l = true → ∀ c ∈ l, lowerOrDigit c = true ∨ c = '-' := by
  intro l
  induction l with
  | nil =>
    intro last? _ c hc
    simp at hc
  | cons d rest ih =>
    intro last? h c hc
    cases hlod : lowerOrDigit d
    · by_cases h2 : d = '-'
      · subst h2
        rw [nfChars_dash_cons, Bool.and_eq_true] at h
        rcases List.mem_cons.mp hc with rfl | hc'
        · exact Or.inr rfl
        · exact ih h.2 c hc'
      · rw [nfChars_bad_cons hlod h2] at h
        exact absurd h (by simp)
    · rw [nfChars_lod_cons hlod] at h
      rcases List.mem_cons.mp hc with rfl | hc'
      · exact Or.inl hlod
      · exact ih h c hc'

theorem splitParts_no_split : ∀ (l acc : List Char),
    (∀ c ∈ l, lowerOrDigit c = true ∨ c = '-') →
    splitParts l acc = if (acc ++ l).isEmpty then [] else [acc ++ l] := by
  intro l
  induction l with
  | nil =>
    intro acc _
    simp [splitParts]
  | cons c rest ih =>
    intro acc hc
    have hcc := hc c (List.mem_cons_self _ _)
    have hns : ¬ (c = '.' ∨ c = '/' ∨ c.isWhitespace) := by
      intro habs
      rcases hcc with h | h
      · rcases habs with h1 | h1 | h1
        · subst h1
          exact absurd h (by decide)
        · subst h1
          exact absurd h (by decide)
        · rw [lowerOrDigit_not_ws h] at h1
          simp at h1
      · subst h
        rcases habs with h1 | h1 | h1
        · simp at h1
        · simp at h1
        · exact absurd h1 (by decide)
    unfold splitParts
    rw [if_neg hns,
      ih (acc ++ [c]) (fun d hd => hc d (List.mem_cons_of_mem _ hd))]
    simp [List.append_assoc]

theorem normalize_path_id {l : List Char} (h : NormalForm l) :
    normalize_path l '-' true = l := by
  unfold normalize_path
  rw [splitParts_no_split l [] (chars_of_nf h.1)]
  by_cases hl : l = []
  · subst hl
    rfl
  · rw [List.nil_append, if_neg (by simpa [List.isEmpty_iff] using hl)]
    unfold joinNormalized
    rw [List.foldl_cons, List.foldl_nil]
    unfold joinStep
    dsimp only
    rw [normalize_token_id h]
    rw [if_neg (by simpa [List.isEmpty_iff] using hl)]
    rw [if_neg (by simp)]
    simp

/-! ### C9 — idempotence of the output-identifier normalization -/

/-- The body `make_css_custom_property_key` normalizes under default
options: `path.trim_start().strip_prefix("--").unwrap_or(path.trim())`. -/
def defaultBody (path : List Char) : List Char :=
  match path.dropWhile Char.isWhitespace with
  | '-' :: '-' :: rest => rest
  | _ =>
    ((path.dropWhile Char.isWhitespace).reverse.dropWhile
      Char.isWhitespace).reverse

theorem makeCssKeyChars_default (p : List Char) :
    makeCssKeyChars p defaultCssKeyOptions =
      '-' :: '-' ::
        (if (normalize_path (defaultBody p) '-' true).isEmpty then []
         else normalize_path (defaultBody p) '-' true) := rfl

theorem makeCssKeyChars_idem (p : List Char) :
    makeCssKeyChars (makeCssKeyChars p defaultCssKeyOptions)
        defaultCssKeyOptions
      = makeCssKeyChars p defaultCssKeyOptions := by
  rw [makeCssKeyChars_default p]
  have hnf : NormalForm (normalize_path (defaultBody p) '-' true) :=
    normalize_path_nf _
  by_cases he : (normalize_path (defaultBody p) '-' true).isEmpty = true
  · rw [if_pos he]
    rfl
  · rw [if_neg he]
    show '-' :: '-' ::
        (if (normalize_path (normalize_path (defaultBody p) '-' true)
            '-' true).isEmpty then []
         else normalize_path (normalize_path (defaultBody p) '-' true)
            '-' true)
      = '-' :: '-' :: normalize_path (defaultBody p) '-' true
    rw [normalize_path_id hnf, if_neg he]

/-- C9, amended: under the default options (no namespace, separator `-`,
lowercase) `make_css_custom_property_key` is idempotent — applying it to its
own output returns that output unchanged — and an input already carrying
the two-character `--` marker has the marker consumed (the body normalized
is exactly what follows the marker), never prefixed a second time.  With a
non-empty namespace this fails: the namespace is prepended again on every
application (see the counterexample). -/
theorem c9_idempotent_default :
    (∀ p : String,
      make_css_custom_property_key
          (make_css_custom_property_key p defaultCssKeyOptions)
          defaultCssKeyOptions
        = make_css_custom_property_key p defaultCssKeyOptions)
    ∧ (∀ p : String,
      make_css_custom_property_key ("--" ++ p) defaultCssKeyOptions
        = String.mk ('-' :: '-' ::
            (if (normalize_path p.data '-' true).isEmpty then []
             else normalize_path p.data '-' true))) := by
  constructor
  · intro p
    show String.mk (makeCssKeyChars
        (String.mk (makeCssKeyChars p.data defaultCssKeyOptions)).data
        defaultCssKeyOptions) = _
    rw [show (String.mk (makeCssKeyChars p.data defaultCssKeyOptions)).data
        = makeCssKeyChars p.data defaultCssKeyOptions from rfl]
    rw [show make_css_custom_property_key p defaultCssKeyOptions
        = String.mk (makeCssKeyChars p.data defaultCssKeyOptions) from rfl]
    rw [makeCssKeyChars_idem]
  · intro p
    show String.mk (makeCssKeyChars ("--" ++ p).data defaultCssKeyOptions) = _
    have hdata : ("--" ++ p).data = '-' :: '-' :: p.data := by
      rw [String.data_append]
      rfl
    rw [hdata]
    rfl

/-- C9, counterexample: with the namespace option `Some("app")` the map is
not idempotent — the namespace is prepended again on the second
application, `--app-a` becoming `--app-app-a`. -/
theorem c9_counterexample :
    make_css_custom_property_key "a" ⟨some "app", '-', true⟩ = "--app-a"
    ∧ make_css_custom_property_key
        (make_css_custom_property_key "a" ⟨some "app", '-', true⟩)
        ⟨some "app", '-', true⟩ = "--app-app-a"
    ∧ make_css_custom_property_key
        (make_css_custom_property_key "a" ⟨some "app", '-', true⟩)
        ⟨some "app", '-', true⟩
      ≠ make_css_custom_property_key "a" ⟨some "app", '-', true⟩ := by
  refine ⟨by decide, by decide, by decide⟩

/-! ### Embedding sanity: the repository's own unit tests

`css_var.rs`'s test suite, replayed against the embedding, and the
`example()` set of `design_token.rs` including the deferred `calc()`
arithmetic over a reference. -/

/-- The `css_var.rs` unit tests evaluate identically in the embedding. -/
theorem css_var_unit_tests :
    make_css_custom_property_key "color.primary.background"
        defaultCssKeyOptions = "--color-primary-background"
    ∧ make_css_custom_property_key "color/theme / primary 500"
        defaultCssKeyOptions = "--color-theme-primary-500"
    ∧ make_css_custom_property_key "--color.primary-500"
        defaultCssKeyOptions = "--color-primary-500"
    ∧ make_css_custom_property_key "Color.PrimaryAccent"
        defaultCssKeyOptions = "--color-primary-accent"
    ∧ make_css_custom_property_key "borderRadius.sm"
        defaultCssKeyOptions = "--border-radius-sm"
    ∧ make_css_custom_property_key "color.primary.500"
        ⟨none, '_', true⟩ = "--color_primary_500"
    ∧ make_css_custom_property_key "color.primary.500"
        ⟨some "dark", '-', true⟩ = "--dark-color-primary-500"
    ∧ make_css_custom_property_key "layout..grid   cols"
        defaultCssKeyOptions = "--layout-grid-cols"
    ∧ make_css_custom_property_key "color---primary"
        defaultCssKeyOptions = "--color-primary"
    ∧ make_css_custom_property_key "size(2x)@md"
        defaultCssKeyOptions = "--size-2x-md"
    ∧ make_css_custom_property_key "" defaultCssKeyOptions = "--"
    ∧ make_css_custom_property_key "--" defaultCssKeyOptions = "--"
    ∧ make_css_custom_property_key "   " defaultCssKeyOptions = "--"
    ∧ make_css_custom_property_key "Color.Primary"
        ⟨some "Dark Mode", '-', true⟩ = "--dark-mode-color-primary"
    ∧ make_css_custom_property_key "button/PrimaryLabel.sizeLg"
        defaultCssKeyOptions = "--button-primary-label-size-lg" := by
  refine ⟨by decide, by decide, by decide, by decide, by decide, by decide,
    by decide, by decide, by decide, by decide, by decide, by decide,
    by decide, by decide, by decide⟩

/-- The `example()` token set of `design_token.rs`. -/
def exampleSet : TokenSet :=
  [("color.blue.50", ⟨"color.blue.50", .string "#3500ff",
      some "A bright blue color"⟩),
   ("color.brand.50", ⟨"color.brand.50", .reference "color.blue.50",
      some "Brand color aliasing blue"⟩),
   ("spacing.base", ⟨"spacing.base", .dimension 4 "px", none⟩),
   ("spacing.large", ⟨"spacing.large",
      .transform [("alias", [.string "spacing.base"]),
                  ("multiply", [.number 4])],
      some "Large spacing as 4x base"⟩),
   ("spacing.base.ref", ⟨"spacing.base.ref", .reference "spacing.base",
      some "CSS var reference to spacing.base"⟩),
   ("spacing.huge", ⟨"spacing.huge",
      .transform [("alias", [.string "spacing.base.ref"]),
                  ("multiply", [.number 3]),
                  ("add", [.dimension 2 "px"])],
      some "Scaled ref with calc()"⟩)]

/-- `example()` resolves as the source intends: the reference becomes a
`var(--...)` string, the dimension pipeline computes `16px`, and the
reference-based pipeline defers into nested `calc()` expressions. -/
theorem example_set_resolves :
    resolve_tokens exampleSet =
      .ok [("color.blue.50", ⟨"color.blue.50", .string "#3500ff",
              some "A bright blue color"⟩),
           ("color.brand.50", ⟨"color.brand.50",
              .string "var(--color-blue-50)",
              some "Brand color aliasing blue"⟩),
           ("spacing.base", ⟨"spacing.base", .dimension 4 "px", none⟩),
           ("spacing.large", ⟨"spacing.large", .dimension 16 "px",
              some "Large spacing as 4x base"⟩),
           ("spacing.base.ref", ⟨"spacing.base.ref",
              .string "var(--spacing-base)",
              some "CSS var reference to spacing.base"⟩),
           ("spacing.huge", ⟨"spacing.huge",
              .string "calc(calc(var(--spacing-base) * 3) + 2px)",
              some "Scaled ref with calc()"⟩)] := by
  have h1 : (4 : Rat) * 4 = 16 := by norm_num
  have h2 : resolve_tokens exampleSet =
      .ok [("color.blue.50", ⟨"color.blue.50", .string "#3500ff",
              some "A bright blue color"⟩),
           ("color.brand.50", ⟨"color.brand.50",
              .string "var(--color-blue-50)",
              some "Brand color aliasing blue"⟩),
           ("spacing.base", ⟨"spacing.base", .dimension 4 "px", none⟩),
           ("spacing.large", ⟨"spacing.large",
              .dimension ((4 : Rat) * 4) "px",
              some "Large spacing as 4x base"⟩),
           ("spacing.base.ref", ⟨"spacing.base.ref",
              .string "var(--spacing-base)",
              some "CSS var reference to spacing.base"⟩),
           ("spacing.huge", ⟨"spacing.huge",
              .string "calc(calc(var(--spacing-base) * 3) + 2px)",
              some "Scaled ref with calc()"⟩)] := by rfl
  rw [h2, h1]
